import Mathlib

/-!
# geogm: the dense-matrix kernel of `blas_wrap.cpp`

A shallow embedding of the portable (`USE_BLAS 0`) operator library and of the
BLAS-backed `matrix_multiply`, with the properties of the kernel proved over it.

Modelling conventions.

* A C++ `double` buffer is a `List α`; the operators are generic in the value type `α`
  and use only the arithmetic the source uses.  Theorems about exact arithmetic take
  `α := ℚ`; theorems about stale or uninitialised contents take `α := Dbl`, the
  rationals extended by an absorbing `NaN`.  Rounding and infinities are not modelled.
* `int` dimensions are natural numbers (the data model keeps `m, n ≥ 0`, and products
  `m*n` are assumed to fit an `int`).
* A function returns `Except Fault _`: `Fault.assertion` is a failed `assert`,
  `Fault.outOfBounds` is a read or write outside the `m*n` buffer, which is undefined
  behaviour in the source.
* The operands of one call are distinct objects (no aliasing between a source and the
  destination).
-/

namespace Geogm

/-- The two ways a call can fail to run to completion. -/
inductive Fault where
  | assertion
  | outOfBounds
deriving DecidableEq

/-- The C `assert(cond)`. -/
def assert (cond : Bool) : Except Fault Unit :=
  if cond then .ok () else .error .assertion

/-- Reading `p[i]` through a raw pointer to a buffer `p`. -/
def rd {α : Type} (p : List α) (i : Nat) : Except Fault α :=
  match p[i]? with
  | some v => .ok v
  | none => .error .outOfBounds

/-- Writing `p[i] = v` through a raw pointer to a buffer `p`. -/
def wr {α : Type} (p : List α) (i : Nat) (v : α) : Except Fault (List α) :=
  if i < p.length then .ok (p.set i v) else .error .outOfBounds

/-- A `double` up to rounding: a rational number, or NaN.  NaN is absorbing for `+`
and `*`, as in IEEE 754; in particular `NaN * 0 = NaN`.  Infinities and signed zeros
are not represented: the type serves to evaluate the operators on buffers that hold
numbers and NaN. -/
inductive Dbl where
  | fin (q : ℚ)
  | nan
deriving DecidableEq

namespace Dbl

/-- Addition of doubles. -/
def add : Dbl → Dbl → Dbl
  | fin a, fin b => fin (a + b)
  | _, _ => nan

/-- Multiplication of doubles. -/
def mul : Dbl → Dbl → Dbl
  | fin a, fin b => fin (a * b)
  | _, _ => nan

instance : Add Dbl := ⟨add⟩

instance : Mul Dbl := ⟨mul⟩

instance : Zero Dbl := ⟨fin 0⟩

instance : Inhabited Dbl := ⟨fin 0⟩

end Dbl

/-- Modelled from the spec: the class `Matrix` of `blas_wrap.h`, which is not among the
sources.  Physical shape `m`, `n`, the transpose flag, and the row-major buffer. -/
structure Matrix (α : Type) where
  m : Nat
  n : Nat
  trans : Bool
  data : List α
deriving DecidableEq

namespace Matrix

variable {α : Type}

/-- The data-model invariant: the buffer holds exactly `m*n` values. -/
def WF (A : Matrix α) : Prop := A.data.length = A.m * A.n

instance (A : Matrix α) : Decidable A.WF := by unfold WF; infer_instance

/-- Modelled from the spec: `first_dim()` of `blas_wrap.h` is `n` when transposed and
`m` otherwise. -/
def first_dim (A : Matrix α) : Nat := if A.trans then A.n else A.m

/-- Modelled from the spec: `second_dim()` of `blas_wrap.h` is `m` when transposed and
`n` otherwise. -/
def second_dim (A : Matrix α) : Nat := if A.trans then A.m else A.n

/-- Modelled from the spec: the physical offset that `get`/`set` of `blas_wrap.h`
address, `i*n + j` with the roles of `i` and `j` swapped when transposed; the stride
is always the physical `n`. -/
def index (A : Matrix α) (i j : Nat) : Nat :=
  if A.trans then j * A.n + i else i * A.n + j

/-- Modelled from the spec: `raw()` of `blas_wrap.h`, the physical buffer. -/
def raw (A : Matrix α) : List α := A.data

/-- Modelled from the spec: `get(i, j)` of `blas_wrap.h`. -/
def get (A : Matrix α) (i j : Nat) : Except Fault α := rd A.data (A.index i j)

/-- The matrix `A` with its buffer replaced. -/
def withData (A : Matrix α) (d : List α) : Matrix α := { A with data := d }

/-- Modelled from the spec: `set(i, j, v)` of `blas_wrap.h`. -/
def set (A : Matrix α) (i j : Nat) (v : α) : Except Fault (Matrix α) := do
  let d ← wr A.data (A.index i j) v
  pure (A.withData d)

/-- The value stored for the logical cell `(i, j)`, with a default outside the buffer;
for a well-formed matrix and an index pair within its logical shape it is what `get`
returns. -/
def peek [Inhabited α] (A : Matrix α) (i j : Nat) : α :=
  (A.data[A.index i j]?).getD default

/-- Modelled from the spec: `transpose()` of `blas_wrap.h` toggles the flag and moves
no data. -/
def transpose (A : Matrix α) : Matrix α := { A with trans := !A.trans }

/-- Modelled from the spec: `zero_fill()` of `blas_wrap.h`. -/
def zero_fill [Zero α] (A : Matrix α) : Matrix α :=
  A.withData (List.replicate (A.m * A.n) 0)

/-- Modelled from the spec: `one_fill()` of `blas_wrap.h`. -/
def one_fill [One α] (A : Matrix α) : Matrix α :=
  A.withData (List.replicate (A.m * A.n) 1)

end Matrix

/-! ## The portable operators (`#else` branch of `blas_wrap.cpp`) -/

section Operators

variable {α : Type}

/-- Body of the loop of `matrix_pproduct`: `dataA[i] = dataA[i]*dataB[i]`. -/
def matrix_pproduct_step [Mul α] (dataB : List α) (dataA : List α) (i : Nat) :
    Except Fault (List α) := do
  let a ← rd dataA i
  let b ← rd dataB i
  wr dataA i (a * b)

/-- The operator `matrix_pproduct(A, B)`: returns the new `A`. -/
def matrix_pproduct [Mul α] (A B : Matrix α) : Except Fault (Matrix α) := do
  let dataA ← (List.range (A.m * A.n)).foldlM (matrix_pproduct_step B.raw) A.raw
  pure (A.withData dataA)

/-- Body of the loop of `matrix_psubdivide`: `dataB[i] = dataA[i] / dataB[i]`. -/
def matrix_psubdivide_step [Div α] (dataA : List α) (dataB : List α) (i : Nat) :
    Except Fault (List α) := do
  let a ← rd dataA i
  let b ← rd dataB i
  wr dataB i (a / b)

/-- The operator `matrix_psubdivide(A, B)`: returns the new `B`. -/
def matrix_psubdivide [Div α] (A B : Matrix α) : Except Fault (Matrix α) := do
  assert (A.m == B.m)
  assert (A.n == B.n)
  let dataB ← (List.range (A.m * A.n)).foldlM (matrix_psubdivide_step A.raw) B.raw
  pure (B.withData dataB)

/-- Body of the loop of `matrix_mse`:
`sum += (dataA[i] - dataB[i]) * (dataA[i] - dataB[i])`. -/
def matrix_mse_step [Add α] [Sub α] [Mul α] (dataA dataB : List α) (sum : α) (i : Nat) :
    Except Fault α := do
  let a ← rd dataA i
  let b ← rd dataB i
  let a' ← rd dataA i
  let b' ← rd dataB i
  pure (sum + (a - b) * (a' - b'))

/-- The operator `matrix_mse(A, B)`: returns `sum / (A.m*A.n)`, the `int` count
converted to `double`. -/
def matrix_mse [Zero α] [Add α] [Sub α] [Mul α] [Div α] [NatCast α] (A B : Matrix α) :
    Except Fault α := do
  assert (A.m == B.m)
  assert (A.n == B.n)
  let sum ← (List.range (A.m * A.n)).foldlM (matrix_mse_step A.raw B.raw) 0
  pure (sum / ((A.m * A.n : Nat) : α))

/-- Body of the loop of `matrix_add`: `dataA[i] += alpha*dataB[i]`, where `dataA` is
the buffer of `x` and `dataB` the buffer of `y`. -/
def matrix_add_step [Add α] [Mul α] (alpha : α) (dataB : List α) (dataA : List α)
    (i : Nat) : Except Fault (List α) := do
  let a ← rd dataA i
  let b ← rd dataB i
  wr dataA i (a + alpha * b)

/-- The operator `matrix_add(x, alpha, y)`: returns the new `x`. -/
def matrix_add [Add α] [Mul α] (x : Matrix α) (alpha : α) (y : Matrix α) :
    Except Fault (Matrix α) := do
  assert (x.m * x.n == y.m * y.n)
  let dataA ← (List.range (x.m * x.n)).foldlM (matrix_add_step alpha y.raw) x.raw
  pure (x.withData dataA)

/-- Body of the loop of `matrix_copy`: `dataB[i] = dataA[i]`. -/
def matrix_copy_step (dataA : List α) (dataB : List α) (i : Nat) : Except Fault (List α) := do
  let a ← rd dataA i
  wr dataB i a

/-- The operator `matrix_copy(A, B)`: returns the new `B`. -/
def matrix_copy (A B : Matrix α) : Except Fault (Matrix α) := do
  assert (A.m == B.m)
  assert (A.n == B.n)
  let dataB ← (List.range (A.m * A.n)).foldlM (matrix_copy_step A.raw) B.raw
  pure (B.withData dataB)

/-- Body of the loop of `dot_product`: `out += dataA[i]*dataB[i]`. -/
def dot_product_step [Add α] [Mul α] (dataA dataB : List α) (out : α) (i : Nat) :
    Except Fault α := do
  let a ← rd dataA i
  let b ← rd dataB i
  pure (out + a * b)

/-- The operator `dot_product(A, B)`. -/
def dot_product [Zero α] [Add α] [Mul α] (A B : Matrix α) : Except Fault α := do
  assert (A.m * A.n == B.m * B.n)
  (List.range (A.m * A.n)).foldlM (dot_product_step A.raw B.raw) 0

/-- The member `Matrix::operator+=(const Matrix& other)`: `matrix_add(*this, 1.0, other)`;
returns the new `*this`. -/
def Matrix.operator_add_assign [One α] [Add α] [Mul α] (self other : Matrix α) :
    Except Fault (Matrix α) :=
  matrix_add self 1 other

/-- Innermost statement of `matrix_vector_multiply`:
`y_raw[i] += alpha*A.get(i,j)*x_raw[j]`. -/
def matrix_vector_multiply_inner [Add α] [Mul α] (A : Matrix α) (x_raw : List α)
    (alpha : α) (i : Nat) (y_raw : List α) (j : Nat) : Except Fault (List α) := do
  let y ← rd y_raw i
  let a ← A.get i j
  let x ← rd x_raw j
  wr y_raw i (y + alpha * a * x)

/-- Body of the outer loop of `matrix_vector_multiply`: `y_raw[i] *= beta`, then the
loop over `j`. -/
def matrix_vector_multiply_row [Add α] [Mul α] (A : Matrix α) (x_raw : List α)
    (alpha beta : α) (y_raw : List α) (i : Nat) : Except Fault (List α) := do
  let y ← rd y_raw i
  let y_raw ← wr y_raw i (y * beta)
  (List.range A.second_dim).foldlM (matrix_vector_multiply_inner A x_raw alpha i) y_raw

/-- The operator `matrix_vector_multiply(A, x, y, alpha, beta)`: returns the new `y`. -/
def matrix_vector_multiply [Add α] [Mul α] (A x y : Matrix α) (alpha beta : α) :
    Except Fault (Matrix α) := do
  assert (A.second_dim == x.m)
  assert (A.first_dim == y.m)
  assert (x.n == 1)
  assert (y.n == 1)
  let y_raw ← (List.range A.first_dim).foldlM
    (matrix_vector_multiply_row A x.raw alpha beta) y.raw
  pure (y.withData y_raw)

/-- Innermost statement of `matrix_multiply`:
`C.set(i,j, C.get(i,j) + alpha*A.get(i,k)*B.get(k,j))`. -/
def matrix_multiply_inner [Add α] [Mul α] (A B : Matrix α) (alpha : α) (i j : Nat)
    (C : Matrix α) (k : Nat) : Except Fault (Matrix α) := do
  let c ← C.get i j
  let a ← A.get i k
  let b ← B.get k j
  C.set i j (c + alpha * a * b)

/-- Body of the loop over `j` of `matrix_multiply`: `C.set(i,j, beta*C.get(i,j))`, then
the loop over `k`. -/
def matrix_multiply_cell [Add α] [Mul α] (A B : Matrix α) (alpha beta : α)
    (C : Matrix α) (ij : Nat × Nat) : Except Fault (Matrix α) := do
  let c ← C.get ij.1 ij.2
  let C ← C.set ij.1 ij.2 (beta * c)
  (List.range A.second_dim).foldlM (matrix_multiply_inner A B alpha ij.1 ij.2) C

/-- The operator `matrix_multiply(A, B, C, alpha, beta)`: returns the new `C`. -/
def matrix_multiply [Add α] [Mul α] (A B C : Matrix α) (alpha beta : α) :
    Except Fault (Matrix α) := do
  assert (A.second_dim == B.first_dim)
  assert (A.first_dim == C.m)
  assert (B.second_dim == C.n)
  (List.range C.m).foldlM (fun Ci i =>
    (List.range C.n).foldlM (fun Cj j => matrix_multiply_cell A B alpha beta Cj (i, j)) Ci) C

end Operators

/-! ## The BLAS-backed `matrix_multiply` (`#if USE_BLAS` branch) -/

section Blas

variable {α : Type}

/-- One term of the inner product of `cblas_dgemm`: `temp += op(A)(i,l) * op(B)(l,j)`,
with `op(X) = X` or its transpose and the row-major leading dimensions `lda`, `ldb`. -/
def cblas_dgemm_term [Add α] [Mul α] (transA transB : Bool) (A : List α) (lda : Nat)
    (B : List α) (ldb : Nat) (i j : Nat) (temp : α) (l : Nat) : Except Fault α := do
  let a ← rd A (if transA then l * lda + i else i * lda + l)
  let b ← rd B (if transB then j * ldb + l else l * ldb + j)
  pure (temp + a * b)

/-- One output cell of `cblas_dgemm`:
`C[i*ldc+j] = alpha*temp + beta*C[i*ldc+j]`, where `beta = 0` overwrites `C` without
reading it. -/
def cblas_dgemm_cell [Zero α] [DecidableEq α] [Add α] [Mul α] (transA transB : Bool)
    (K : Nat) (alpha : α) (A : List α) (lda : Nat) (B : List α) (ldb : Nat) (beta : α)
    (ldc : Nat) (C : List α) (ij : Nat × Nat) : Except Fault (List α) := do
  let temp ← (List.range K).foldlM (cblas_dgemm_term transA transB A lda B ldb ij.1 ij.2) 0
  if beta = 0 then
    wr C (ij.1 * ldc + ij.2) (alpha * temp)
  else do
    let c ← rd C (ij.1 * ldc + ij.2)
    wr C (ij.1 * ldc + ij.2) (alpha * temp + beta * c)

/-- Modelled from the spec: `cblas_dgemm` of the external BLAS library (`<cblas.h>`, not
among the sources), by its reference semantics in `CblasRowMajor` order:
`C ← alpha*op(A)*op(B) + beta*C` on an `M × N` result with inner dimension `K`. -/
def cblas_dgemm [Zero α] [DecidableEq α] [Add α] [Mul α] (transA transB : Bool)
    (M N K : Nat) (alpha : α) (A : List α) (lda : Nat) (B : List α) (ldb : Nat) (beta : α)
    (C : List α) (ldc : Nat) : Except Fault (List α) :=
  (List.range M).foldlM (fun Ci i =>
    (List.range N).foldlM (fun Cj j =>
      cblas_dgemm_cell transA transB K alpha A lda B ldb beta ldc Cj (i, j)) Ci) C

/-- The operator `matrix_multiply(A, B, C, alpha, beta)` of the `USE_BLAS` branch:
returns the new `C`. -/
def matrix_multiply_blas [Zero α] [DecidableEq α] [Add α] [Mul α] (A B C : Matrix α)
    (alpha beta : α) : Except Fault (Matrix α) := do
  let transA := A.trans
  let transB := B.trans
  assert (A.second_dim == B.first_dim)
  assert (A.first_dim == C.m)
  assert (B.second_dim == C.n)
  let d ← cblas_dgemm transA transB C.m C.n A.second_dim alpha A.raw A.n B.raw B.n beta
    C.raw C.n
  pure (C.withData d)

end Blas

/-! ## The index pairs `matrix_multiply` hands to `get` and `set` -/

/-- Which operand of `matrix_multiply` an access goes to. -/
inductive Operand where
  | A
  | B
  | C
deriving DecidableEq

/-- One call `X.get(i, j)` or `X.set(i, j, _)`. -/
structure Access where
  operand : Operand
  i : Nat
  j : Nat
deriving DecidableEq

/-- The accesses of the statement
`C.set(i,j, C.get(i,j) + alpha*A.get(i,k)*B.get(k,j))`. -/
def matrix_multiply_inner_accesses (i j k : Nat) : List Access :=
  [⟨.C, i, j⟩, ⟨.A, i, k⟩, ⟨.B, k, j⟩, ⟨.C, i, j⟩]

/-- The accesses of one iteration of the loop over `j`: `C.set(i,j, beta*C.get(i,j))`,
then the loop over `k`. -/
def matrix_multiply_cell_accesses (K : Nat) (i j : Nat) : List Access :=
  [⟨.C, i, j⟩, ⟨.C, i, j⟩] ++ (List.range K).flatMap (matrix_multiply_inner_accesses i j)

/-- Every index pair the portable `matrix_multiply` passes to `get` or `set`, in program
order; a call that fails an assertion accesses nothing. -/
def matrix_multiply_accesses {α : Type} (A B C : Matrix α) : List Access :=
  if A.second_dim == B.first_dim && A.first_dim == C.m && B.second_dim == C.n then
    (List.range C.m).flatMap fun i =>
      (List.range C.n).flatMap fun j => matrix_multiply_cell_accesses A.second_dim i j
  else []

/-- The matrix an access goes to. -/
def Access.target {α : Type} (A B C : Matrix α) (x : Access) : Matrix α :=
  match x.operand with
  | .A => A
  | .B => B
  | .C => C

/-! ## Matrices of the test program `blastest.cpp` and of the counterexamples -/

/-- Test case 1: `a`, 2×3, transposed. -/
def tc1_a : Matrix ℚ := ⟨2, 3, true, [-3, 1, 1, 1, -1, 4]⟩

/-- Test case 1: `b`, 2×4. -/
def tc1_b : Matrix ℚ := ⟨2, 4, false, [2, 1, 9, 41 / 10, -32 / 10, 14 / 10, 0, 0]⟩

/-- Test case 1: `c`, 3×4, zero-filled. -/
def tc1_c : Matrix ℚ := Matrix.zero_fill ⟨3, 4, false, []⟩

/-- Test case 1: the reference result. -/
def tc1_expected : Matrix ℚ :=
  ⟨3, 4, false, [-92 / 100, -16 / 100, -27 / 10, -123 / 100,
                 52 / 100, -4 / 100, 9 / 10, 41 / 100,
                 -108 / 100, 66 / 100, 9 / 10, 41 / 100]⟩

/-- Test case 6: `a`, 2×3. -/
def tc6_a : Matrix ℚ := ⟨2, 3, false, [-3, 1, 1, 1, -1, 4]⟩

/-- Test cases 6 and 7: `x`, 3×1. -/
def tc6_x : Matrix ℚ := ⟨3, 1, false, [2, 1, 1]⟩

/-- Test cases 6 and 7: `y`, 2×1, never filled by the test; some stale numbers. -/
def tc6_y : Matrix ℚ := ⟨2, 1, false, [3, -8]⟩

/-- Test case 7: `a`, 3×2, before `a.transpose()`. -/
def tc7_a : Matrix ℚ := ⟨3, 2, false, [-3, 1, 1, -1, 1, 4]⟩

/-- A 3×1 matrix of ones. -/
def ones_3x1 : Matrix ℚ := ⟨3, 1, false, [1, 1, 1]⟩

/-- The 1×2 matrix `[1, 2]`. -/
def row_1_2 : Matrix ℚ := ⟨1, 2, false, [1, 2]⟩

/-- A zero-filled 3×2 output with its transpose flag set. -/
def out_3x2_transposed : Matrix ℚ := ⟨3, 2, true, [0, 0, 0, 0, 0, 0]⟩

/-- The 1×1 matrix `[1]`. -/
def one_1x1 : Matrix ℚ := ⟨1, 1, false, [1]⟩

/-- A 1×2 output `[5, 6]` with its transpose flag set. -/
def out_1x2_transposed : Matrix ℚ := ⟨1, 2, true, [5, 6]⟩

/-- The values of `x` of test case 6 stored as a 1×3 row and transposed: logically a
3×1 column. -/
def x_row_transposed : Matrix ℚ := ⟨1, 3, true, [2, 1, 1]⟩

/-- A 3×1 column with its transpose flag set: logically a 1×3 row. -/
def x_col_transposed : Matrix ℚ := ⟨3, 1, true, [2, 1, 1]⟩

/-- A 2×1 vector stored as a 1×2 row with its transpose flag set: logically a 2×1
column. -/
def y_row_transposed : Matrix ℚ := ⟨1, 2, true, [3, -8]⟩

/-- The 1×1 matrix `[1]` over doubles. -/
def one_1x1_dbl : Matrix Dbl := ⟨1, 1, false, [.fin 1]⟩

/-- A 1×1 output holding NaN, as an uninitialised buffer may. -/
def nan_1x1 : Matrix Dbl := ⟨1, 1, false, [.nan]⟩

/-- A 1×1 output holding zero. -/
def zero_1x1 : Matrix Dbl := ⟨1, 1, false, [.fin 0]⟩

/-- A 3×1 matrix of ones over doubles. -/
def ones_3x1_dbl : Matrix Dbl := ⟨3, 1, false, [.fin 1, .fin 1, .fin 1]⟩

/-- The 1×2 matrix `[1, 2]` over doubles. -/
def row_1_2_dbl : Matrix Dbl := ⟨1, 2, false, [.fin 1, .fin 2]⟩

/-- A 3×2 output with its transpose flag set, holding `7` at the last offset. -/
def out_3x2_transposed_7 : Matrix Dbl :=
  ⟨3, 2, true, [.fin 0, .fin 0, .fin 0, .fin 0, .fin 0, .fin 7]⟩

/-- A 3×2 output with its transpose flag set, holding `9` at the last offset. -/
def out_3x2_transposed_9 : Matrix Dbl :=
  ⟨3, 2, true, [.fin 0, .fin 0, .fin 0, .fin 0, .fin 0, .fin 9]⟩

/-- Test case 6 over doubles: `a`. -/
def tc6_a_dbl : Matrix Dbl :=
  ⟨2, 3, false, [.fin (-3), .fin 1, .fin 1, .fin 1, .fin (-1), .fin 4]⟩

/-- Test case 6 over doubles: `x`. -/
def tc6_x_dbl : Matrix Dbl := ⟨3, 1, false, [.fin 2, .fin 1, .fin 1]⟩

/-- Test case 6 over doubles: the unfilled `y`, with a NaN in its first element. -/
def tc6_y_nan : Matrix Dbl := ⟨2, 1, false, [.nan, .fin 0]⟩

/-- Test case 6 over doubles: the unfilled `y`, holding stale numbers. -/
def tc6_y_dbl : Matrix Dbl := ⟨2, 1, false, [.fin 3, .fin (-8)]⟩

/-- The 1×1 matrix `[2]`. -/
def two_1x1 : Matrix ℚ := ⟨1, 1, false, [2]⟩

/-- The 1×2 matrix `[3, 5]`. -/
def row_3_5 : Matrix ℚ := ⟨1, 2, false, [3, 5]⟩

/-- The 1×1 matrix `[3]`. -/
def three_1x1 : Matrix ℚ := ⟨1, 1, false, [3]⟩

/-- A 2×1 matrix of ones. -/
def ones_2x1 : Matrix ℚ := ⟨2, 1, false, [1, 1]⟩

/-- A zero-filled 2×2 output with its transpose flag set. -/
def out_2x2_transposed : Matrix ℚ := ⟨2, 2, true, [0, 0, 0, 0]⟩

/-- Test case 5: `a`, 2×3. -/
def tc5_a : Matrix ℚ := ⟨2, 3, false, [-3, 1, 1, 1, -1, 4]⟩

/-- Test case 5: `b`, 2×3. -/
def tc5_b : Matrix ℚ := ⟨2, 3, false, [2, 1, 1, -11 / 10, -1, 3]⟩

/-- Test case 4: `a`, 11×14, one-filled. -/
def tc4_a : Matrix ℚ := Matrix.one_fill ⟨11, 14, false, []⟩

/-- Test case 4: `b`, 11×14, never filled by the test; some stale numbers. -/
def tc4_b : Matrix ℚ := ⟨11, 14, false, List.replicate 154 (-7)⟩

/-- The values of test case 5's `b` held as a 3×2 matrix with its flag set. -/
def tc5_b_3x2_transposed : Matrix ℚ := ⟨3, 2, true, [2, 1, 1, -11 / 10, -1, 3]⟩

/-- The values of test case 5's `b` held as a 6×1 column. -/
def tc5_b_6x1 : Matrix ℚ := ⟨6, 1, false, [2, 1, 1, -11 / 10, -1, 3]⟩

section Loops

variable {α : Type}

@[simp] theorem bind_ok {ε β γ : Type} (a : β) (f : β → Except ε γ) :
    (Except.ok a >>= f) = f a := rfl

@[simp] theorem bind_error {ε β γ : Type} (e : ε) (f : β → Except ε γ) :
    (Except.error e >>= f) = Except.error e := rfl

@[simp] theorem pure_eq_ok {ε β : Type} (a : β) : (pure a : Except ε β) = Except.ok a := rfl

theorem rd_of_getElem? {p : List α} {i : Nat} {v : α} (h : p[i]? = some v) :
    rd p i = .ok v := by
  simp [rd, h]

theorem wr_of_lt {p : List α} {i : Nat} (v : α) (h : i < p.length) :
    wr p i v = .ok (p.set i v) := by
  simp [wr, h]

theorem set_same {p : List α} {i : Nat} {v : α} (h : p[i]? = some v) : p.set i v = p := by
  apply List.ext_getElem?
  intro k
  by_cases hk : i = k
  · subst hk
    obtain ⟨hlt, -⟩ := List.getElem?_eq_some.mp h
    rw [List.getElem?_set_self hlt, h]
  · rw [List.getElem?_set_ne hk]

theorem foldlM_map_pair {σ ι κ : Type} (f : σ → ι × κ → Except Fault σ) (i : ι)
    (l₂ : List κ) (t : σ) :
    (l₂.map (Prod.mk i)).foldlM f t = l₂.foldlM (fun sj j => f sj (i, j)) t := by
  induction l₂ generalizing t with
  | nil => rfl
  | cons j l₂ ih₂ =>
    simp only [List.map_cons, List.foldlM_cons]
    cases f t (i, j) with
    | error e => rfl
    | ok t1 => exact ih₂ t1

/-- A loop nest over `l₁` and `l₂` is one loop over the pairs, in the same order. -/
theorem foldlM_product {σ ι κ : Type} (f : σ → ι × κ → Except Fault σ) (l₁ : List ι)
    (l₂ : List κ) (s : σ) :
    l₁.foldlM (fun si i => l₂.foldlM (fun sj j => f sj (i, j)) si) s
      = (List.product l₁ l₂).foldlM f s := by
  induction l₁ generalizing s with
  | nil => rfl
  | cons i l₁ ih =>
    show _ = List.foldlM f s ((i :: l₁) ×ˢ l₂)
    rw [List.product_cons, List.foldlM_append, List.foldlM_cons, foldlM_map_pair]
    cases l₂.foldlM (fun sj j => f sj (i, j)) s with
    | error e => rfl
    | ok s1 => exact ih s1

/-- A loop whose body rewrites one buffer position per iteration, each position at most
once: every visited position holds the body's function of its initial value, every
other position is untouched. -/
theorem foldlM_cells {σ ι : Type} (put : List α → σ) (off : ι → Nat) (g : ι → α → α)
    (step : σ → ι → Except Fault σ)
    (cells : List ι)
    (hstep : ∀ d, ∀ c ∈ cells, ∀ v, d[off c]? = some v →
      step (put d) c = .ok (put (d.set (off c) (g c v))))
    (hnd : (cells.map off).Nodup) (d : List α)
    (hin : ∀ c ∈ cells, off c < d.length) :
    ∃ d', cells.foldlM step (put d) = .ok (put d') ∧ d'.length = d.length ∧
      (∀ c ∈ cells, ∀ v, d[off c]? = some v → d'[off c]? = some (g c v)) ∧
      (∀ o, (∀ c ∈ cells, off c ≠ o) → d'[o]? = d[o]?) := by
  induction cells generalizing d with
  | nil => exact ⟨d, rfl, rfl, by simp, by simp⟩
  | cons c cs ih =>
    have hc : off c < d.length := hin c (List.mem_cons_self _ _)
    have hv : d[off c]? = some d[off c] := List.getElem?_eq_getElem hc
    rw [List.map_cons, List.nodup_cons] at hnd
    obtain ⟨hnot, hnd'⟩ := hnd
    have hne : ∀ c' ∈ cs, off c ≠ off c' := by
      intro c' hc' heq
      exact hnot (heq ▸ List.mem_map_of_mem off hc')
    obtain ⟨d', hrun, hlen, hvis, hrest⟩ := ih
      (fun e c' hc' v hv' => hstep e c' (List.mem_cons_of_mem _ hc') v hv') hnd'
      (d.set (off c) (g c d[off c]))
      (by intro c' hc'; rw [List.length_set]; exact hin c' (List.mem_cons_of_mem _ hc'))
    refine ⟨d', ?_, ?_, ?_, ?_⟩
    · rw [List.foldlM_cons, hstep d c (List.mem_cons_self _ _) _ hv]
      exact hrun
    · rw [hlen, List.length_set]
    · intro c' hc' v hv'
      rcases List.mem_cons.mp hc' with rfl | hmem
      · rw [hrest (off c') (fun c'' hc'' => (hne c'' hc'').symm), List.getElem?_set_self hc]
        rw [hv] at hv'
        cases hv'
        rfl
      · apply hvis c' hmem
        rw [List.getElem?_set_ne (hne c' hmem)]
        exact hv'
    · intro o ho
      rw [hrest o (fun c' hc' => ho c' (List.mem_cons_of_mem _ hc')),
        List.getElem?_set_ne (ho c (List.mem_cons_self _ _))]

end Loops

section Indexing

variable {α : Type}

theorem offset_lt {m n i j : Nat} (hi : i < m) (hj : j < n) : i * n + j < m * n := by
  calc i * n + j < i * n + n := by omega
    _ = (i + 1) * n := by ring
    _ ≤ m * n := Nat.mul_le_mul_right n hi

theorem offset_inj {n i j i' j' : Nat} (hj : j < n) (hj' : j' < n)
    (h : i * n + j = i' * n + j') : i = i' ∧ j = j' := by
  have hn : 0 < n := by omega
  have h1 : (i * n + j) / n = i := by
    rw [Nat.add_comm, Nat.add_mul_div_right _ _ hn, Nat.div_eq_of_lt hj, Nat.zero_add]
  have h2 : (i' * n + j') / n = i' := by
    rw [Nat.add_comm, Nat.add_mul_div_right _ _ hn, Nat.div_eq_of_lt hj', Nat.zero_add]
  have hi : i = i' := by rw [← h1, ← h2, h]
  subst hi
  exact ⟨rfl, by omega⟩

namespace Matrix

theorem index_lt_mul (A : Matrix α) {i j : Nat} (hi : i < A.first_dim)
    (hj : j < A.second_dim) : A.index i j < A.m * A.n := by
  unfold first_dim at hi
  unfold second_dim at hj
  unfold index
  cases ht : A.trans <;> simp only [ht, if_true, if_false, Bool.false_eq_true] at hi hj ⊢
  · exact offset_lt hi hj
  · exact offset_lt hj hi

theorem index_lt {A : Matrix α} (hA : A.WF) {i j : Nat} (hi : i < A.first_dim)
    (hj : j < A.second_dim) : A.index i j < A.data.length := by
  unfold WF at hA
  rw [hA]
  exact index_lt_mul A hi hj

theorem peek_eq [Inhabited α] {A : Matrix α} (hA : A.WF) {i j : Nat} (hi : i < A.first_dim)
    (hj : j < A.second_dim) : A.data[A.index i j]? = some (A.peek i j) := by
  unfold peek
  rw [List.getElem?_eq_getElem (index_lt hA hi hj)]
  rfl

theorem get_peek [Inhabited α] {A : Matrix α} (hA : A.WF) {i j : Nat} (hi : i < A.first_dim)
    (hj : j < A.second_dim) : A.get i j = .ok (A.peek i j) :=
  rd_of_getElem? (peek_eq hA hi hj)

/-- The output matrix is addressed over its physical rectangle `m × n`; that matches
its logical shape when it is untransposed or square. -/
theorem logical_of_physical {C : Matrix α} (hC : C.trans = false ∨ C.m = C.n) {i j : Nat}
    (hi : i < C.m) (hj : j < C.n) : i < C.first_dim ∧ j < C.second_dim := by
  unfold first_dim second_dim
  rcases hC with h | h
  · simp [h, hi, hj]
  · cases ht : C.trans <;> simp <;> omega

theorem index_inj {C : Matrix α} (hC : C.trans = false ∨ C.m = C.n) {i j i' j' : Nat}
    (hi : i < C.m) (hj : j < C.n) (hi' : i' < C.m) (hj' : j' < C.n)
    (h : C.index i j = C.index i' j') : i = i' ∧ j = j' := by
  unfold index at h
  cases ht : C.trans
  · simp only [ht, if_false, Bool.false_eq_true] at h
    exact offset_inj hj hj' h
  · have hmn : C.m = C.n := by
      rcases hC with h' | h'
      · rw [ht] at h'; cases h'
      · exact h'
    simp only [ht, if_true] at h
    have := @offset_inj C.n j i j' i' (by omega) (by omega) h
    exact ⟨this.2, this.1⟩

@[simp] theorem withData_withData (C : Matrix α) (d e : List α) :
    (C.withData d).withData e = C.withData e := rfl

@[simp] theorem withData_data (C : Matrix α) (d : List α) : (C.withData d).data = d := rfl

@[simp] theorem withData_index (C : Matrix α) (d : List α) :
    (C.withData d).index = C.index := rfl

@[simp] theorem withData_self (C : Matrix α) : C.withData C.data = C := rfl

theorem get_withData {C : Matrix α} {d : List α} {i j : Nat} {v : α}
    (h : d[C.index i j]? = some v) : (C.withData d).get i j = .ok v :=
  rd_of_getElem? h

theorem set_withData {C : Matrix α} {d : List α} {i j : Nat} (v : α)
    (h : C.index i j < d.length) :
    (C.withData d).set i j v = .ok (C.withData (d.set (C.index i j) v)) := by
  simp [set, wr_of_lt v h]

end Matrix

end Indexing

section Multiply

variable {α : Type} [Add α] [Mul α]

theorem matrix_multiply_inner_run (A B C : Matrix α) (alpha : α) (i j : Nat)
    (a b : Nat → α) (ks : List Nat)
    (ha : ∀ k ∈ ks, A.get i k = .ok (a k)) (hb : ∀ k ∈ ks, B.get k j = .ok (b k))
    (d : List α) (c : α) (hc : d[C.index i j]? = some c) :
    ks.foldlM (matrix_multiply_inner A B alpha i j) (C.withData d)
      = .ok (C.withData (d.set (C.index i j) (ks.foldl (fun s k => s + alpha * a k * b k) c))) := by
  induction ks generalizing d c with
  | nil => simp [set_same hc]
  | cons k ks ih =>
    have hlt : C.index i j < d.length := (List.getElem?_eq_some.mp hc).1
    rw [List.foldlM_cons]
    have hstep : matrix_multiply_inner A B alpha i j (C.withData d) k
        = .ok (C.withData (d.set (C.index i j) (c + alpha * a k * b k))) := by
      simp [matrix_multiply_inner, Matrix.get_withData hc, ha k (List.mem_cons_self _ _),
        hb k (List.mem_cons_self _ _), Matrix.set_withData _ hlt]
    rw [hstep, bind_ok, ih (fun k' hk' => ha k' (List.mem_cons_of_mem _ hk'))
      (fun k' hk' => hb k' (List.mem_cons_of_mem _ hk')) _ _ (List.getElem?_set_self hlt),
      List.set_set, List.foldl_cons]

theorem matrix_multiply_cell_run (A B C : Matrix α) (alpha beta : α) (i j : Nat)
    (a b : Nat → α)
    (ha : ∀ k, k < A.second_dim → A.get i k = .ok (a k))
    (hb : ∀ k, k < A.second_dim → B.get k j = .ok (b k))
    (d : List α) (c : α) (hc : d[C.index i j]? = some c) :
    matrix_multiply_cell A B alpha beta (C.withData d) (i, j)
      = .ok (C.withData (d.set (C.index i j)
          ((List.range A.second_dim).foldl (fun s k => s + alpha * a k * b k) (beta * c)))) := by
  have hlt : C.index i j < d.length := (List.getElem?_eq_some.mp hc).1
  simp only [matrix_multiply_cell, Matrix.get_withData hc, bind_ok, Matrix.set_withData _ hlt]
  rw [matrix_multiply_inner_run A B C alpha i j a b _
    (fun k hk => ha k (List.mem_range.mp hk)) (fun k hk => hb k (List.mem_range.mp hk))
    _ _ (List.getElem?_set_self hlt), List.set_set]

/-- The whole of `matrix_multiply` on an output matrix that is untransposed or square:
the call completes, every cell of the rectangle holds the accumulated value, and no
other position of the buffer changes. -/
theorem matrix_multiply_run (A B C : Matrix α) (alpha beta : α) (a b : Nat → Nat → α)
    (ha : ∀ i k, i < A.first_dim → k < A.second_dim → A.get i k = .ok (a i k))
    (hb : ∀ k j, k < B.first_dim → j < B.second_dim → B.get k j = .ok (b k j))
    (hC : C.WF) (h1 : A.second_dim = B.first_dim) (h2 : A.first_dim = C.m)
    (h3 : B.second_dim = C.n) (hCt : C.trans = false ∨ C.m = C.n) :
    ∃ d', matrix_multiply A B C alpha beta = .ok (C.withData d') ∧
      d'.length = C.data.length ∧
      (∀ i j, i < C.m → j < C.n → ∀ c, C.data[C.index i j]? = some c →
        d'[C.index i j]? = some ((List.range A.second_dim).foldl
          (fun s k => s + alpha * a i k * b k j) (beta * c))) ∧
      (∀ o, (∀ i j, i < C.m → j < C.n → C.index i j ≠ o) → d'[o]? = C.data[o]?) := by
  have hcells : ∀ ij ∈ List.product (List.range C.m) (List.range C.n),
      ij.1 < C.m ∧ ij.2 < C.n := by
    intro ij hij
    obtain ⟨i, j⟩ := ij
    have := List.mem_product.mp hij
    exact ⟨List.mem_range.mp this.1, List.mem_range.mp this.2⟩
  obtain ⟨d', hrun, hlen, hvis, hrest⟩ := foldlM_cells C.withData
    (fun ij : Nat × Nat => C.index ij.1 ij.2)
    (fun ij c => (List.range A.second_dim).foldl
      (fun s k => s + alpha * a ij.1 k * b k ij.2) (beta * c))
    (matrix_multiply_cell A B alpha beta)
    (List.product (List.range C.m) (List.range C.n))
    (by
      intro d ij hij v hv
      obtain ⟨hi, hj⟩ := hcells ij hij
      exact matrix_multiply_cell_run A B C alpha beta ij.1 ij.2 (a ij.1) (fun k => b k ij.2)
        (fun k hk => ha ij.1 k (h2 ▸ hi) hk) (fun k hk => hb k ij.2 (h1 ▸ hk) (h3 ▸ hj)) d v hv)
    (by
      apply List.Nodup.map_on
      · intro x hx y hy hxy
        obtain ⟨hx1, hx2⟩ := hcells x hx
        obtain ⟨hy1, hy2⟩ := hcells y hy
        obtain ⟨e1, e2⟩ := Matrix.index_inj hCt hx1 hx2 hy1 hy2 hxy
        exact Prod.ext e1 e2
      · exact List.Nodup.product (List.nodup_range _) (List.nodup_range _))
    C.data
    (by
      intro ij hij
      obtain ⟨hi, hj⟩ := hcells ij hij
      obtain ⟨hi', hj'⟩ := Matrix.logical_of_physical hCt hi hj
      exact Matrix.index_lt hC hi' hj')
  refine ⟨d', ?_, hlen, ?_, ?_⟩
  · simp only [matrix_multiply, assert, h1, h2, h3, beq_self_eq_true, if_true, bind_ok]
    rw [foldlM_product (matrix_multiply_cell A B alpha beta)]
    exact hrun
  · intro i j hi hj c hc
    exact hvis (i, j) (List.mem_product.mpr ⟨List.mem_range.mpr hi, List.mem_range.mpr hj⟩) c hc
  · intro o ho
    exact hrest o (fun ij hij => ho ij.1 ij.2 (hcells ij hij).1 (hcells ij hij).2)

end Multiply

section Algebra

/-- The accumulation loop in closed form: scale first, then add `alpha` times the sum of
the products.  `alpha * 0 = 0` is what an empty inner dimension needs. -/
theorem foldl_accumulate {α : Type} [AddCommMonoid α] [Semigroup α] [LeftDistribClass α]
    (alpha : α) (h0 : alpha * 0 = 0) (a b : Nat → α) (s : α) (K : Nat) :
    (List.range K).foldl (fun s k => s + alpha * a k * b k) s
      = s + alpha * ∑ k in Finset.range K, a k * b k := by
  induction K with
  | zero => simp [h0]
  | succ K ih =>
    rw [List.range_succ, List.foldl_append, ih, Finset.sum_range_succ, left_distrib]
    simp [add_assoc, mul_assoc]

end Algebra

section MatVec

variable {α : Type} [Add α] [Mul α]

theorem matrix_vector_multiply_inner_run (A : Matrix α) (x_raw : List α) (alpha : α)
    (i : Nat) (a xs : Nat → α) (js : List Nat)
    (ha : ∀ j ∈ js, A.get i j = .ok (a j)) (hx : ∀ j ∈ js, x_raw[j]? = some (xs j))
    (d : List α) (v : α) (hv : d[i]? = some v) :
    js.foldlM (matrix_vector_multiply_inner A x_raw alpha i) d
      = .ok (d.set i (js.foldl (fun s j => s + alpha * a j * xs j) v)) := by
  induction js generalizing d v with
  | nil => simp [set_same hv]
  | cons j js ih =>
    have hlt : i < d.length := (List.getElem?_eq_some.mp hv).1
    have hstep : matrix_vector_multiply_inner A x_raw alpha i d j
        = .ok (d.set i (v + alpha * a j * xs j)) := by
      simp [matrix_vector_multiply_inner, rd_of_getElem? hv, ha j (List.mem_cons_self _ _),
        rd_of_getElem? (hx j (List.mem_cons_self _ _)), wr_of_lt _ hlt]
    rw [List.foldlM_cons, hstep, bind_ok, ih (fun k hk => ha k (List.mem_cons_of_mem _ hk))
      (fun k hk => hx k (List.mem_cons_of_mem _ hk)) _ _ (List.getElem?_set_self hlt),
      List.set_set, List.foldl_cons]

theorem matrix_vector_multiply_row_run (A : Matrix α) (x_raw : List α) (alpha beta : α)
    (i : Nat) (a xs : Nat → α)
    (ha : ∀ j, j < A.second_dim → A.get i j = .ok (a j))
    (hx : ∀ j, j < A.second_dim → x_raw[j]? = some (xs j))
    (d : List α) (v : α) (hv : d[i]? = some v) :
    matrix_vector_multiply_row A x_raw alpha beta d i
      = .ok (d.set i ((List.range A.second_dim).foldl
          (fun s j => s + alpha * a j * xs j) (v * beta))) := by
  have hlt : i < d.length := (List.getElem?_eq_some.mp hv).1
  simp only [matrix_vector_multiply_row, rd_of_getElem? hv, bind_ok, wr_of_lt _ hlt]
  rw [matrix_vector_multiply_inner_run A x_raw alpha i a xs _
    (fun j hj => ha j (List.mem_range.mp hj)) (fun j hj => hx j (List.mem_range.mp hj))
    _ _ (List.getElem?_set_self hlt), List.set_set]

/-- The whole of `matrix_vector_multiply` once its four assertions hold: the call
completes and row `i` of `y` holds the scaled old value plus the accumulated products. -/
theorem matrix_vector_multiply_run (A x y : Matrix α) (alpha beta : α)
    (a : Nat → Nat → α) (xs : Nat → α)
    (ha : ∀ i j, i < A.first_dim → j < A.second_dim → A.get i j = .ok (a i j))
    (hx : ∀ j, j < A.second_dim → x.data[j]? = some (xs j))
    (hy : y.WF) (h1 : A.second_dim = x.m) (h2 : A.first_dim = y.m)
    (hxn : x.n = 1) (hyn : y.n = 1) :
    ∃ d', matrix_vector_multiply A x y alpha beta = .ok (y.withData d') ∧
      d'.length = y.data.length ∧
      (∀ i, i < A.first_dim → ∀ v, y.data[i]? = some v →
        d'[i]? = some ((List.range A.second_dim).foldl
          (fun s j => s + alpha * a i j * xs j) (v * beta))) := by
  have hlen : y.data.length = A.first_dim := by
    unfold Matrix.WF at hy
    rw [hy, hyn, h2, Nat.mul_one]
  obtain ⟨d', hrun, hlen', hvis, -⟩ := foldlM_cells (fun d : List α => d) (fun i : Nat => i)
    (fun i v => (List.range A.second_dim).foldl (fun s j => s + alpha * a i j * xs j) (v * beta))
    (matrix_vector_multiply_row A x.raw alpha beta) (List.range A.first_dim)
    (by
      intro d i hi v hv
      exact matrix_vector_multiply_row_run A x.raw alpha beta i (a i) xs
        (fun j hj => ha i j (List.mem_range.mp hi) hj) hx d v hv)
    (by rw [List.map_id']; exact List.nodup_range _)
    y.data
    (by intro i hi; rw [hlen]; exact List.mem_range.mp hi)
  refine ⟨d', ?_, hlen', ?_⟩
  · simp only [matrix_vector_multiply, assert, h1, h2, hxn, hyn, beq_self_eq_true, if_true,
      bind_ok, Matrix.raw]
    rw [← h2]
    simp only [Matrix.raw] at hrun
    rw [hrun]
    rfl
  · intro i hi v hv
    exact hvis i (List.mem_range.mpr hi) v hv

/-- On well-formed operands that pass the four assertions the call completes. -/
theorem matrix_vector_multiply_completes [Inhabited α] (A x y : Matrix α) (alpha beta : α)
    (hA : A.WF) (hx : x.WF) (hy : y.WF)
    (h1 : A.second_dim = x.m) (h2 : A.first_dim = y.m) (hxn : x.n = 1) (hyn : y.n = 1) :
    ∃ y', matrix_vector_multiply A x y alpha beta = .ok y' := by
  have hxlen : x.data.length = A.second_dim := by
    unfold Matrix.WF at hx
    rw [hx, hxn, h1, Nat.mul_one]
  obtain ⟨d', hrun, -⟩ := matrix_vector_multiply_run A x y alpha beta A.peek
    (fun j => (x.data[j]?).getD default) (fun i j hi hj => Matrix.get_peek hA hi hj)
    (by
      intro j hj
      simp only [List.getElem?_eq_getElem (hxlen ▸ hj), Option.getD_some])
    hy h1 h2 hxn hyn
  exact ⟨_, hrun⟩

/-- A failed assertion stops `matrix_vector_multiply` before any access. -/
theorem matrix_vector_multiply_assert (A x y : Matrix α) (alpha beta : α)
    (h : ¬ (A.second_dim = x.m ∧ A.first_dim = y.m ∧ x.n = 1 ∧ y.n = 1)) :
    matrix_vector_multiply A x y alpha beta = .error .assertion := by
  unfold matrix_vector_multiply assert
  by_cases h1 : A.second_dim = x.m
  · by_cases h2 : A.first_dim = y.m
    · by_cases h3 : x.n = 1
      · by_cases h4 : y.n = 1
        · exact absurd ⟨h1, h2, h3, h4⟩ h
        · simp [h1, h2, h3, h4]
      · simp [h1, h2, h3]
    · simp [h1, h2]
  · simp [h1]

theorem foldlM_congr {σ ι : Type} (f g : σ → ι → Except Fault σ) (l : List ι)
    (h : ∀ s, ∀ x ∈ l, f s x = g s x) (s : σ) : l.foldlM f s = l.foldlM g s := by
  induction l generalizing s with
  | nil => rfl
  | cons x l ih =>
    rw [List.foldlM_cons, List.foldlM_cons, h s x (List.mem_cons_self _ _)]
    cases g s x with
    | error e => rfl
    | ok t => exact ih (fun s' x' hx' => h s' x' (List.mem_cons_of_mem _ hx')) t

/-- The operator reads `A` only through `first_dim`, `second_dim` and `get` inside the
logical shape: two matrices that agree there give the same call. -/
theorem matrix_vector_multiply_congr (A A' x y : Matrix α) (alpha beta : α)
    (hd1 : A'.first_dim = A.first_dim) (hd2 : A'.second_dim = A.second_dim)
    (hg : ∀ i j, i < A.first_dim → j < A.second_dim → A'.get i j = A.get i j) :
    matrix_vector_multiply A' x y alpha beta = matrix_vector_multiply A x y alpha beta := by
  unfold matrix_vector_multiply
  rw [hd1, hd2]
  have hrow : ∀ (d : List α), ∀ i ∈ List.range A.first_dim,
      matrix_vector_multiply_row A' x.raw alpha beta d i
        = matrix_vector_multiply_row A x.raw alpha beta d i := by
    intro d i hi
    unfold matrix_vector_multiply_row
    rw [hd2]
    congr 1
    funext y0
    congr 1
    funext d1
    apply foldlM_congr
    intro s j hj
    unfold matrix_vector_multiply_inner
    rw [hg i j (List.mem_range.mp hi) (List.mem_range.mp hj)]
  rw [foldlM_congr _ _ _ hrow]

end MatVec

namespace Matrix

variable {α : Type}

@[simp] theorem transpose_first_dim (A : Matrix α) : A.transpose.first_dim = A.second_dim := by
  unfold transpose first_dim second_dim
  cases A.trans <;> rfl

@[simp] theorem transpose_second_dim (A : Matrix α) : A.transpose.second_dim = A.first_dim := by
  unfold transpose first_dim second_dim
  cases A.trans <;> rfl

theorem transpose_index (A : Matrix α) (i j : Nat) : A.transpose.index i j = A.index j i := by
  unfold transpose index
  cases A.trans <;> rfl

theorem transpose_get (A : Matrix α) (i j : Nat) : A.transpose.get i j = A.get j i := by
  unfold get
  rw [transpose_index]
  rfl

end Matrix

/-! ## `matrix_multiply`, cell by cell -/

section Claims

/-- C1 (amended).  `matrix_multiply(A, B, C, alpha, beta)` computes
`C ← alpha*A*B + beta*C` cell by cell: for every `A` and `B` (transpose flag set or
clear) and every `C` that is untransposed or square, with
`A.second_dim()==B.first_dim()`, `A.first_dim()==C.m` and `B.second_dim()==C.n`, the call
completes and every cell `i < C.m`, `j < C.n` satisfies
`C.get(i,j) = beta*C_old.get(i,j) + alpha * Σ_{k < A.second_dim()} A.get(i,k)*B.get(k,j)`. -/
theorem matrix_multiply_cellwise (A B C : Matrix ℚ) (alpha beta : ℚ)
    (hA : A.WF) (hB : B.WF) (hC : C.WF)
    (h1 : A.second_dim = B.first_dim) (h2 : A.first_dim = C.m) (h3 : B.second_dim = C.n)
    (hCt : C.trans = false ∨ C.m = C.n) :
    ∃ C', matrix_multiply A B C alpha beta = .ok C' ∧
      C'.m = C.m ∧ C'.n = C.n ∧ C'.trans = C.trans ∧
      ∀ i j, i < C.m → j < C.n →
        ∃ (c : ℚ) (a b : Nat → ℚ), C.get i j = .ok c ∧
          (∀ k, k < A.second_dim → A.get i k = .ok (a k) ∧ B.get k j = .ok (b k)) ∧
          C'.get i j = .ok (beta * c + alpha * ∑ k in Finset.range A.second_dim, a k * b k) := by
  obtain ⟨d', hrun, -, hvis, -⟩ := matrix_multiply_run A B C alpha beta A.peek B.peek
    (fun i k hi hk => Matrix.get_peek hA hi hk) (fun k j hk hj => Matrix.get_peek hB hk hj)
    hC h1 h2 h3 hCt
  refine ⟨C.withData d', hrun, rfl, rfl, rfl, ?_⟩
  intro i j hi hj
  obtain ⟨hi', hj'⟩ := Matrix.logical_of_physical hCt hi hj
  refine ⟨C.peek i j, A.peek i, fun k => B.peek k j, Matrix.get_peek hC hi' hj', ?_, ?_⟩
  · intro k hk
    exact ⟨Matrix.get_peek hA (h2 ▸ hi) hk, Matrix.get_peek hB (h1 ▸ hk) (h3 ▸ hj)⟩
  · have := hvis i j hi hj _ (Matrix.peek_eq hC hi' hj')
    rw [foldl_accumulate alpha (mul_zero _)] at this
    exact Matrix.get_withData this

theorem tc1_run : matrix_multiply tc1_a tc1_b tc1_c (1 / 10) 2 = .ok tc1_expected := by
  with_unfolding_all rfl

/-- C1, test case 1: the transposed 2×3 `a`, the 2×4 `b` and the zero-filled 3×4 `c`
meet the hypotheses, so every cell obeys the formula; the call returns the reference
matrix of the test. -/
theorem matrix_multiply_cellwise_witness :
    (tc1_a.WF ∧ tc1_b.WF ∧ tc1_c.WF ∧ tc1_a.second_dim = tc1_b.first_dim ∧
      tc1_a.first_dim = tc1_c.m ∧ tc1_b.second_dim = tc1_c.n) ∧
    (∃ C', matrix_multiply tc1_a tc1_b tc1_c (1 / 10) 2 = .ok C' ∧
      C'.m = tc1_c.m ∧ C'.n = tc1_c.n ∧ C'.trans = tc1_c.trans ∧
      ∀ i j, i < tc1_c.m → j < tc1_c.n →
        ∃ (c : ℚ) (a b : Nat → ℚ), tc1_c.get i j = .ok c ∧
          (∀ k, k < tc1_a.second_dim → tc1_a.get i k = .ok (a k) ∧ tc1_b.get k j = .ok (b k)) ∧
          C'.get i j
            = .ok (2 * c + 1 / 10 * ∑ k in Finset.range tc1_a.second_dim, a k * b k)) ∧
    matrix_multiply tc1_a tc1_b tc1_c (1 / 10) 2 = .ok tc1_expected :=
  ⟨⟨by decide, by decide, by decide, by decide, by decide, by decide⟩,
    matrix_multiply_cellwise tc1_a tc1_b tc1_c (1 / 10) 2 (by decide) (by decide) (by decide)
      (by decide) (by decide) (by decide) (Or.inl rfl),
    tc1_run⟩

theorem transposed_output_run :
    matrix_multiply ones_3x1 row_1_2 out_3x2_transposed 1 0
      = .ok ⟨3, 2, true, [1, 1, 1, 2, 2, 0]⟩ := by
  with_unfolding_all rfl

/-- The BLAS-backed body on the same transposed 3×2 output: it fills the buffer row by
row, so `C.get(0,1)`, which reads offset 2, is `1` here as well. -/
theorem transposed_output_run_blas :
    matrix_multiply_blas ones_3x1 row_1_2 out_3x2_transposed 1 0
      = .ok ⟨3, 2, true, [1, 2, 1, 2, 1, 2]⟩ := by
  with_unfolding_all rfl

/-- C1 as stated fails on a transposed, non-square `C`.  With `A` the 3×1 matrix of
ones, `B = [1, 2]` and a zero-filled 3×2 `C` whose flag is set, the three requirements
hold and the call completes, but cell `(0,1)` ends as `1` where the formula gives
`0*0 + 1*(1*2) = 2`: the cells `(0,1)` and `(2,0)` share the physical offset 2. -/
theorem matrix_multiply_cellwise_counterexample :
    (ones_3x1.WF ∧ row_1_2.WF ∧ out_3x2_transposed.WF ∧
      ones_3x1.second_dim = row_1_2.first_dim ∧
      ones_3x1.first_dim = out_3x2_transposed.m ∧
      row_1_2.second_dim = out_3x2_transposed.n) ∧
    ¬ ∃ C', matrix_multiply ones_3x1 row_1_2 out_3x2_transposed 1 0 = .ok C' ∧
      ∀ i j, i < out_3x2_transposed.m → j < out_3x2_transposed.n →
        ∃ (c : ℚ) (a b : Nat → ℚ), out_3x2_transposed.get i j = .ok c ∧
          (∀ k, k < ones_3x1.second_dim →
            ones_3x1.get i k = .ok (a k) ∧ row_1_2.get k j = .ok (b k)) ∧
          C'.get i j
            = .ok (0 * c + 1 * ∑ k in Finset.range ones_3x1.second_dim, a k * b k) := by
  refine ⟨⟨by decide, by decide, by decide, by decide, by decide, by decide⟩, ?_⟩
  rintro ⟨C', hrun, hall⟩
  rw [transposed_output_run] at hrun
  cases hrun
  obtain ⟨c, a, b, hc, hab, hget⟩ := hall 0 1 (by decide) (by decide)
  obtain ⟨ha, hb⟩ := hab 0 (by decide)
  have ha0 : a 0 = 1 := by
    have h : (Except.ok 1 : Except Fault ℚ) = .ok (a 0) := ha
    exact (Except.ok.inj h).symm
  have hb0 : b 0 = 2 := by
    have h : (Except.ok 2 : Except Fault ℚ) = .ok (b 0) := hb
    exact (Except.ok.inj h).symm
  have hval : (Except.ok 1 : Except Fault ℚ)
      = .ok (0 * c + 1 * ∑ k in Finset.range 1, a k * b k) := hget
  rw [Finset.sum_range_one, ha0, hb0] at hval
  have h12 : (1 : ℚ) = 0 * c + 1 * (1 * 2) := by
    injection hval
  norm_num at h12

end Claims

/-! ## `matrix_vector_multiply` -/

section ClaimsMatVec

/-- C2 (amended).  `matrix_vector_multiply(A, x, y, alpha, beta)` computes
`y ← alpha*A*x + beta*y`: for every `A` (transpose flag set or clear) and `x`, `y` stored
as columns (`x.n == 1`, `y.n == 1`) with `A.second_dim()==x.m` and `A.first_dim()==y.m`,
the call completes and `y[i] = beta*y_old[i] + alpha * Σ_{j < A.second_dim()}
A.get(i,j)*x[j]` for every `i < A.first_dim()`; shape and flag of `y` are kept.  `A` and
`x` are `const` operands that the function only reads. -/
theorem matrix_vector_multiply_rows (A x y : Matrix ℚ) (alpha beta : ℚ)
    (hA : A.WF) (hx : x.WF) (hy : y.WF)
    (h1 : A.second_dim = x.m) (h2 : A.first_dim = y.m) (hxn : x.n = 1) (hyn : y.n = 1) :
    ∃ y', matrix_vector_multiply A x y alpha beta = .ok y' ∧
      y'.m = y.m ∧ y'.n = y.n ∧ y'.trans = y.trans ∧
      ∀ i, i < A.first_dim →
        ∃ (yi : ℚ) (a xs : Nat → ℚ), y.raw[i]? = some yi ∧
          (∀ j, j < A.second_dim → A.get i j = .ok (a j) ∧ x.raw[j]? = some (xs j)) ∧
          y'.raw[i]?
            = some (beta * yi + alpha * ∑ j in Finset.range A.second_dim, a j * xs j) := by
  have hxlen : x.data.length = A.second_dim := by
    unfold Matrix.WF at hx
    rw [hx, hxn, h1, Nat.mul_one]
  have hylen : y.data.length = A.first_dim := by
    unfold Matrix.WF at hy
    rw [hy, hyn, h2, Nat.mul_one]
  have hxs : ∀ j, j < A.second_dim → x.data[j]? = some (x.data.getD j 0) := by
    intro j hj
    rw [List.getD_eq_getElem?_getD, List.getElem?_eq_getElem (hxlen ▸ hj)]
    rfl
  have hys : ∀ i, i < A.first_dim → y.data[i]? = some (y.data.getD i 0) := by
    intro i hi
    rw [List.getD_eq_getElem?_getD, List.getElem?_eq_getElem (hylen ▸ hi)]
    rfl
  obtain ⟨d', hrun, -, hvis⟩ := matrix_vector_multiply_run A x y alpha beta A.peek
    (fun j => x.data.getD j 0) (fun i j hi hj => Matrix.get_peek hA hi hj) hxs hy h1 h2 hxn hyn
  refine ⟨y.withData d', hrun, rfl, rfl, rfl, ?_⟩
  intro i hi
  refine ⟨y.data.getD i 0, A.peek i, fun j => x.data.getD j 0, hys i hi, ?_, ?_⟩
  · intro j hj
    exact ⟨Matrix.get_peek hA hi hj, hxs j hj⟩
  · have := hvis i hi _ (hys i hi)
    rw [foldl_accumulate alpha (mul_zero _), mul_comm _ beta] at this
    exact this

theorem tc6_run : matrix_vector_multiply tc6_a tc6_x tc6_y 1 0 = .ok ⟨2, 1, false, [-4, 5]⟩ := by
  with_unfolding_all rfl

/-- C2, test case 6: `A=[[-3,1,1],[1,-1,4]]`, `x=[2,1,1]^T`, `alpha=1`, `beta=0` meets
the hypotheses, and the call returns `y=[-4,5]^T` whatever `y` held. -/
theorem matrix_vector_multiply_rows_witness :
    (tc6_a.WF ∧ tc6_x.WF ∧ tc6_y.WF ∧ tc6_a.second_dim = tc6_x.m ∧
      tc6_a.first_dim = tc6_y.m ∧ tc6_x.n = 1 ∧ tc6_y.n = 1) ∧
    (∃ y', matrix_vector_multiply tc6_a tc6_x tc6_y 1 0 = .ok y' ∧
      y'.m = tc6_y.m ∧ y'.n = tc6_y.n ∧ y'.trans = tc6_y.trans ∧
      ∀ i, i < tc6_a.first_dim →
        ∃ (yi : ℚ) (a xs : Nat → ℚ), tc6_y.raw[i]? = some yi ∧
          (∀ j, j < tc6_a.second_dim →
            tc6_a.get i j = .ok (a j) ∧ tc6_x.raw[j]? = some (xs j)) ∧
          y'.raw[i]?
            = some (0 * yi + 1 * ∑ j in Finset.range tc6_a.second_dim, a j * xs j)) ∧
    matrix_vector_multiply tc6_a tc6_x tc6_y 1 0 = .ok ⟨2, 1, false, [-4, 5]⟩ :=
  ⟨⟨by decide, by decide, by decide, by decide, by decide, by decide, by decide⟩,
    matrix_vector_multiply_rows tc6_a tc6_x tc6_y 1 0 (by decide) (by decide) (by decide)
      (by decide) (by decide) (by decide) (by decide),
    tc6_run⟩

/-- C2 as stated fails on a column vector that is a transposed row.  `x` holds
`[2,1,1]` as a 1×3 buffer with its flag set, so `x.second_dim() = 1` and
`x.first_dim() = 3 = A.second_dim()`; `y` is a plain 2×1 column.  The requirements of the
claim hold, and the call stops at `assert( A.second_dim() == x.m )` without computing
`y`. -/
theorem matrix_vector_multiply_rows_counterexample :
    (tc6_a.WF ∧ x_row_transposed.WF ∧ tc6_y.WF ∧
      x_row_transposed.second_dim = 1 ∧ tc6_y.second_dim = 1 ∧
      tc6_a.second_dim = x_row_transposed.first_dim ∧
      tc6_a.first_dim = tc6_y.first_dim) ∧
    matrix_vector_multiply tc6_a x_row_transposed tc6_y 1 0 = .error .assertion :=
  ⟨⟨by decide, by decide, by decide, by decide, by decide, by decide, by decide⟩,
    by with_unfolding_all rfl⟩

/-- C3.  `matrix_vector_multiply` honours `A.trans` as a view: when `A'` holds the
transpose of `A` (`A'.get(j,i) = A.get(i,j)` over the shape of `A`), the call on
`A'.transpose()` is the call on `A`, for every `x`, `y`, `alpha`, `beta`: the same `y`
when the preconditions hold, the same failure when they do not.  The value type is
arbitrary, so the two calls agree rounding and all. -/
theorem matrix_vector_multiply_transposed_view {α : Type} [Add α] [Mul α]
    (A A' x y : Matrix α) (alpha beta : α)
    (hd1 : A'.first_dim = A.second_dim) (hd2 : A'.second_dim = A.first_dim)
    (hg : ∀ i j, i < A.first_dim → j < A.second_dim → A'.get j i = A.get i j) :
    matrix_vector_multiply A'.transpose x y alpha beta
      = matrix_vector_multiply A x y alpha beta := by
  apply matrix_vector_multiply_congr
  · rw [Matrix.transpose_first_dim, hd2]
  · rw [Matrix.transpose_second_dim, hd1]
  · intro i j hi hj
    rw [Matrix.transpose_get]
    exact hg i j hi hj

theorem tc7_entries : ∀ i j, i < tc6_a.first_dim → j < tc6_a.second_dim →
    tc7_a.get j i = tc6_a.get i j := by
  intro i j hi hj
  have hi' : i < 2 := hi
  have hj' : j < 3 := hj
  interval_cases i <;> interval_cases j <;> rfl

/-- C3, test cases 6 and 7: the 3×2 matrix of test case 7 holds the transpose of the 2×3
matrix of test case 6, and after `transpose()` it yields the same `y=[-4,5]^T`. -/
theorem matrix_vector_multiply_transposed_view_witness :
    (tc7_a.first_dim = tc6_a.second_dim ∧ tc7_a.second_dim = tc6_a.first_dim ∧
      ∀ i j, i < tc6_a.first_dim → j < tc6_a.second_dim → tc7_a.get j i = tc6_a.get i j) ∧
    matrix_vector_multiply tc7_a.transpose tc6_x tc6_y 1 0
      = matrix_vector_multiply tc6_a tc6_x tc6_y 1 0 ∧
    matrix_vector_multiply tc7_a.transpose tc6_x tc6_y 1 0 = .ok ⟨2, 1, false, [-4, 5]⟩ :=
  ⟨⟨by decide, by decide, tc7_entries⟩,
    matrix_vector_multiply_transposed_view tc6_a tc7_a tc6_x tc6_y 1 0 (by decide) (by decide)
      tc7_entries,
    by with_unfolding_all rfl⟩

/-- C7 (amended).  `matrix_vector_multiply` accepts its operands exactly when the
asserted conditions on the physical shapes of `x` and `y` hold: on well-formed matrices
it runs to completion if and only if `A.second_dim()==x.m`, `A.first_dim()==y.m`,
`x.n==1` and `y.n==1`, and it stops with an assertion failure on every other
combination of shapes and transpose flags. -/
theorem matrix_vector_multiply_accepts (A x y : Matrix ℚ) (alpha beta : ℚ)
    (hA : A.WF) (hx : x.WF) (hy : y.WF) :
    ((∃ y', matrix_vector_multiply A x y alpha beta = .ok y') ↔
      (A.second_dim = x.m ∧ A.first_dim = y.m ∧ x.n = 1 ∧ y.n = 1)) ∧
    (¬ (A.second_dim = x.m ∧ A.first_dim = y.m ∧ x.n = 1 ∧ y.n = 1) →
      matrix_vector_multiply A x y alpha beta = .error .assertion) := by
  refine ⟨⟨?_, ?_⟩, matrix_vector_multiply_assert A x y alpha beta⟩
  · rintro ⟨y', hrun⟩
    by_contra hnot
    rw [matrix_vector_multiply_assert A x y alpha beta hnot] at hrun
    cases hrun
  · rintro ⟨h1, h2, hxn, hyn⟩
    exact matrix_vector_multiply_completes A x y alpha beta hA hx hy h1 h2 hxn hyn

/-- C7, on test case 6 and on a 3×1 `x` whose flag is set. -/
theorem matrix_vector_multiply_accepts_witness :
    (tc6_a.WF ∧ tc6_x.WF ∧ tc6_y.WF) ∧
    (((∃ y', matrix_vector_multiply tc6_a tc6_x tc6_y 1 0 = .ok y') ↔
      (tc6_a.second_dim = tc6_x.m ∧ tc6_a.first_dim = tc6_y.m ∧ tc6_x.n = 1 ∧ tc6_y.n = 1)) ∧
    (¬ (tc6_a.second_dim = tc6_x.m ∧ tc6_a.first_dim = tc6_y.m ∧ tc6_x.n = 1 ∧ tc6_y.n = 1) →
      matrix_vector_multiply tc6_a tc6_x tc6_y 1 0 = .error .assertion)) :=
  ⟨⟨by decide, by decide, by decide⟩,
    matrix_vector_multiply_accepts tc6_a tc6_x tc6_y 1 0 (by decide) (by decide) (by decide)⟩

/-- C7 as stated fails in both directions.  A 3×1 `x` with its flag set is logically a
1×3 row (`x.first_dim() = 1 ≠ 3 = A.second_dim()`, `x.second_dim() = 3 ≠ 1`), yet the
call runs to completion; a 2×1 `y` stored as a transposed 1×2 row satisfies every
logical condition together with the plain `x`, yet the call traps. -/
theorem matrix_vector_multiply_accepts_counterexample :
    (¬ (tc6_a.second_dim = x_col_transposed.first_dim ∧ tc6_a.first_dim = tc6_y.first_dim ∧
        x_col_transposed.second_dim = 1 ∧ tc6_y.second_dim = 1) ∧
      matrix_vector_multiply tc6_a x_col_transposed tc6_y 1 0 = .ok ⟨2, 1, false, [-4, 5]⟩) ∧
    ((tc6_a.second_dim = tc6_x.first_dim ∧ tc6_a.first_dim = y_row_transposed.first_dim ∧
        tc6_x.second_dim = 1 ∧ y_row_transposed.second_dim = 1) ∧
      matrix_vector_multiply tc6_a tc6_x y_row_transposed 1 0 = .error .assertion) :=
  ⟨⟨by decide, by with_unfolding_all rfl⟩,
    ⟨⟨by decide, by decide, by decide, by decide⟩, by with_unfolding_all rfl⟩⟩

end ClaimsMatVec

/-! ## `matrix_multiply`: the roles of `alpha` and `beta` -/

section ClaimsScaling

/-- A loop whose every iteration either leaves the state as it is or stops with the
fault `e` ends the same way. -/
theorem foldlM_fixed {σ ι : Type} (step : σ → ι → Except Fault σ) (s : σ) (e : Fault)
    (l : List ι) (h : ∀ x ∈ l, step s x = .ok s ∨ step s x = .error e) :
    l.foldlM step s = .ok s ∨ l.foldlM step s = .error e := by
  induction l with
  | nil => exact Or.inl rfl
  | cons x l ih =>
    rw [List.foldlM_cons]
    rcases h x (List.mem_cons_self _ _) with hx | hx
    · rw [hx, bind_ok]
      exact ih (fun x' hx' => h x' (List.mem_cons_of_mem _ hx'))
    · rw [hx]
      exact Or.inr rfl

/-- With `alpha = 0`, `beta = 1` one cell of `matrix_multiply` writes back what it
read: it leaves `C` as it is, or its first access to `C` is outside the buffer. -/
theorem matrix_multiply_cell_alpha_zero_beta_one (A B C : Matrix ℚ) (i j : Nat)
    (a b : Nat → ℚ)
    (ha : ∀ k, k < A.second_dim → A.get i k = .ok (a k))
    (hb : ∀ k, k < A.second_dim → B.get k j = .ok (b k)) :
    matrix_multiply_cell A B 0 1 C (i, j) = .ok C ∨
      matrix_multiply_cell A B 0 1 C (i, j) = .error .outOfBounds := by
  cases hc : C.data[C.index i j]? with
  | none =>
    right
    have hget : C.get i j = .error .outOfBounds := by
      unfold Matrix.get rd
      rw [hc]
    simp only [matrix_multiply_cell, hget, bind_error]
  | some c =>
    left
    have hrun := matrix_multiply_cell_run A B C 0 1 i j a b ha hb C.data c hc
    rw [Matrix.withData_self, foldl_accumulate 0 (mul_zero _)] at hrun
    rw [hrun]
    have hval : (1 : ℚ) * c + 0 * ∑ k in Finset.range A.second_dim, a k * b k = c := by ring
    rw [hval, set_same hc]
    rfl

/-- With `alpha = 0` and `beta = 1` the portable `matrix_multiply` never returns a
changed `C`, whatever the flag of `C`: on compatible shapes it returns `C` as it was, or
it stops at an access outside the buffer of `C`. -/
theorem matrix_multiply_alpha_zero_beta_one_safe (A B C : Matrix ℚ)
    (hA : A.WF) (hB : B.WF)
    (h1 : A.second_dim = B.first_dim) (h2 : A.first_dim = C.m) (h3 : B.second_dim = C.n) :
    matrix_multiply A B C 0 1 = .ok C ∨ matrix_multiply A B C 0 1 = .error .outOfBounds := by
  have e1 : (A.second_dim == B.first_dim) = true := by rw [h1]; exact beq_self_eq_true _
  have e2 : (A.first_dim == C.m) = true := by rw [h2]; exact beq_self_eq_true _
  have e3 : (B.second_dim == C.n) = true := by rw [h3]; exact beq_self_eq_true _
  simp only [matrix_multiply, assert, e1, e2, e3, if_true, bind_ok]
  rw [foldlM_product (matrix_multiply_cell A B 0 1)]
  apply foldlM_fixed
  intro ij hij
  obtain ⟨i, j⟩ := ij
  have hmem := List.mem_product.mp hij
  have hi : i < A.first_dim := by rw [h2]; exact List.mem_range.mp hmem.1
  have hj : j < B.second_dim := by rw [h3]; exact List.mem_range.mp hmem.2
  exact matrix_multiply_cell_alpha_zero_beta_one A B C i j (A.peek i) (fun k => B.peek k j)
    (fun k hk => Matrix.get_peek hA hi hk) (fun k hk => Matrix.get_peek hB (h1 ▸ hk) hj)

/-- On an output that is untransposed or square, `matrix_multiply` with `alpha = 0` and
`beta = 1` completes and returns `C` as it was. -/
theorem matrix_multiply_alpha_zero_beta_one (A B C : Matrix ℚ)
    (hA : A.WF) (hB : B.WF) (hC : C.WF)
    (h1 : A.second_dim = B.first_dim) (h2 : A.first_dim = C.m) (h3 : B.second_dim = C.n)
    (hCt : C.trans = false ∨ C.m = C.n) :
    matrix_multiply A B C 0 1 = .ok C := by
  obtain ⟨d', hrun, -, hvis, hrest⟩ := matrix_multiply_run A B C 0 1 A.peek B.peek
    (fun i k hi hk => Matrix.get_peek hA hi hk) (fun k j hk hj => Matrix.get_peek hB hk hj)
    hC h1 h2 h3 hCt
  have hd : d' = C.data := by
    apply List.ext_getElem?
    intro o
    by_cases hex : ∃ i j, i < C.m ∧ j < C.n ∧ C.index i j = o
    · obtain ⟨i, j, hi, hj, rfl⟩ := hex
      obtain ⟨hi', hj'⟩ := Matrix.logical_of_physical hCt hi hj
      rw [hvis i j hi hj _ (Matrix.peek_eq hC hi' hj'), foldl_accumulate 0 (mul_zero _),
        Matrix.peek_eq hC hi' hj']
      simp
    · exact hrest o (fun i j hi hj heq => hex ⟨i, j, hi, hj, heq⟩)
  rw [hrun, hd]
  rfl

/-- C4: under `beta = 0` the portable body still depends on what the output held.  A NaN
left in a 1×1 output survives, since `C.set(i,j, beta*C.get(i,j))` computes
`0 * NaN = NaN`: the outputs `[NaN]` and `[0]` end as `[NaN]` and `[1]`, where the
BLAS-backed body, which does not read `C` when `beta = 0`, gives `[1]` for both.  And
with the flag of a 3×2 output set, the portable body never writes offset 5, so two
outputs that differ there (`7` and `9`) still differ after the call, where the
BLAS-backed body gives `[1, 2, 1, 2, 1, 2]` for both. -/
theorem matrix_multiply_beta_zero_depends_on_output :
    (matrix_multiply one_1x1_dbl one_1x1_dbl nan_1x1 (.fin 1) 0 = .ok ⟨1, 1, false, [.nan]⟩ ∧
      matrix_multiply one_1x1_dbl one_1x1_dbl zero_1x1 (.fin 1) 0
        = .ok ⟨1, 1, false, [.fin 1]⟩ ∧
      matrix_multiply_blas one_1x1_dbl one_1x1_dbl nan_1x1 (.fin 1) 0
        = .ok ⟨1, 1, false, [.fin 1]⟩ ∧
      matrix_multiply_blas one_1x1_dbl one_1x1_dbl zero_1x1 (.fin 1) 0
        = .ok ⟨1, 1, false, [.fin 1]⟩) ∧
    (matrix_multiply ones_3x1_dbl row_1_2_dbl out_3x2_transposed_7 (.fin 1) 0
        = .ok ⟨3, 2, true, [.fin 1, .fin 1, .fin 1, .fin 2, .fin 2, .fin 7]⟩ ∧
      matrix_multiply ones_3x1_dbl row_1_2_dbl out_3x2_transposed_9 (.fin 1) 0
        = .ok ⟨3, 2, true, [.fin 1, .fin 1, .fin 1, .fin 2, .fin 2, .fin 9]⟩ ∧
      matrix_multiply_blas ones_3x1_dbl row_1_2_dbl out_3x2_transposed_7 (.fin 1) 0
        = .ok ⟨3, 2, true, [.fin 1, .fin 2, .fin 1, .fin 2, .fin 1, .fin 2]⟩ ∧
      matrix_multiply_blas ones_3x1_dbl row_1_2_dbl out_3x2_transposed_9 (.fin 1) 0
        = .ok ⟨3, 2, true, [.fin 1, .fin 2, .fin 1, .fin 2, .fin 1, .fin 2]⟩) :=
  ⟨⟨by with_unfolding_all rfl, by with_unfolding_all rfl, by with_unfolding_all rfl,
      by with_unfolding_all rfl⟩,
    ⟨by with_unfolding_all rfl, by with_unfolding_all rfl, by with_unfolding_all rfl,
      by with_unfolding_all rfl⟩⟩

/-- C6: the code keeps a NaN of `y` under `beta = 0`.  On test case 6 with a NaN in the
unfilled `y[0]`, `y_raw[0] *= beta` gives `NaN * 0 = NaN` and the accumulation keeps it:
the call returns `[NaN, 5]`, not `[-4, 5]`.  Stale numbers in `y` are discarded. -/
theorem matrix_vector_multiply_beta_zero_keeps_nan :
    matrix_vector_multiply tc6_a_dbl tc6_x_dbl tc6_y_nan (.fin 1) 0
      = .ok ⟨2, 1, false, [.nan, .fin 5]⟩ ∧
    matrix_vector_multiply tc6_a_dbl tc6_x_dbl tc6_y_dbl (.fin 1) 0
      = .ok ⟨2, 1, false, [.fin (-4), .fin 5]⟩ :=
  ⟨by with_unfolding_all rfl, by with_unfolding_all rfl⟩

/-- C8: `matrix_pproduct` has no assertion on the element counts.  With a 1×1 `A` and a
1×2 `B` (counts 1 and 2) the call completes and multiplies the first elements only; with
a 1×2 `A` and a 1×1 `B` it reads `dataB[1]` past the end of `B` instead of failing an
assertion. -/
theorem matrix_pproduct_no_assertion :
    (two_1x1.m * two_1x1.n ≠ row_3_5.m * row_3_5.n ∧
      matrix_pproduct two_1x1 row_3_5 = .ok ⟨1, 1, false, [6]⟩) ∧
    (row_3_5.m * row_3_5.n ≠ three_1x1.m * three_1x1.n ∧
      matrix_pproduct row_3_5 three_1x1 = .error .outOfBounds) :=
  ⟨⟨by decide, by with_unfolding_all rfl⟩, ⟨by decide, by with_unfolding_all rfl⟩⟩

end ClaimsScaling

/-! ## `matrix_multiply`: index safety and the two backends -/

section ClaimsAccess

/-- On an output that is untransposed or square, every index pair `matrix_multiply`
hands to `get` or `set` of `A`, `B` and `C` lies inside the logical shape of that
matrix, and its physical offset lies below `m*n`. -/
theorem matrix_multiply_accesses_in_bounds {α : Type} (A B C : Matrix α)
    (hCt : C.trans = false ∨ C.m = C.n) :
    ∀ x ∈ matrix_multiply_accesses A B C,
      x.i < (x.target A B C).first_dim ∧ x.j < (x.target A B C).second_dim ∧
      (x.target A B C).index x.i x.j < (x.target A B C).m * (x.target A B C).n := by
  intro x hx
  unfold matrix_multiply_accesses at hx
  split at hx
  · rename_i hcond
    simp only [Bool.and_eq_true, beq_iff_eq] at hcond
    obtain ⟨⟨h1, h2⟩, h3⟩ := hcond
    simp only [List.mem_flatMap, List.mem_range] at hx
    obtain ⟨i, hi, j, hj, hx⟩ := hx
    have hCb := Matrix.logical_of_physical hCt hi hj
    have key : ∀ (M : Matrix α) (p q : Nat), p < M.first_dim → q < M.second_dim →
        p < M.first_dim ∧ q < M.second_dim ∧ M.index p q < M.m * M.n :=
      fun M p q hp hq => ⟨hp, hq, Matrix.index_lt_mul M hp hq⟩
    unfold matrix_multiply_cell_accesses at hx
    rw [List.mem_append] at hx
    rcases hx with hx | hx
    · simp only [List.mem_cons, List.mem_singleton, List.not_mem_nil, or_false, or_self] at hx
      subst hx
      exact key C i j hCb.1 hCb.2
    · simp only [List.mem_flatMap, List.mem_range] at hx
      obtain ⟨k, hk, hx⟩ := hx
      unfold matrix_multiply_inner_accesses at hx
      simp only [List.mem_cons, List.mem_singleton, List.not_mem_nil, or_false] at hx
      rcases hx with rfl | rfl | rfl | rfl
      · exact key C i j hCb.1 hCb.2
      · exact key A i k (h2 ▸ hi) hk
      · exact key B k j (h1 ▸ hk) (h3 ▸ hj)
      · exact key C i j hCb.1 hCb.2
  · cases hx

end ClaimsAccess

section ClaimsAccessExamples

/-- C9: the portable body indexes outside a transposed output.  `A` is 1×1, `B` is 1×2
and `C = [5, 6]` is 1×2 with its flag set: the three requirements hold and every
assertion passes, then the loop `j < C.n` reaches `C.get(0,1)`.  The logical shape of
`C` is 2×1, so `j = 1` is not below `second_dim() = 1`, and the physical offset
`1*2+0 = 2` is not below `m*n = 2`: the run leaves the buffer there.  The BLAS-backed
body stays inside the buffer on the same input and returns `[6, 8]`. -/
theorem matrix_multiply_leaves_output_buffer :
    (one_1x1.WF ∧ row_1_2.WF ∧ out_1x2_transposed.WF ∧
      one_1x1.second_dim = row_1_2.first_dim ∧ one_1x1.first_dim = out_1x2_transposed.m ∧
      row_1_2.second_dim = out_1x2_transposed.n) ∧
    ((⟨.C, 0, 1⟩ : Access) ∈ matrix_multiply_accesses one_1x1 row_1_2 out_1x2_transposed ∧
      ¬ (1 < out_1x2_transposed.second_dim) ∧
      ¬ (out_1x2_transposed.index 0 1 < out_1x2_transposed.m * out_1x2_transposed.n)) ∧
    matrix_multiply one_1x1 row_1_2 out_1x2_transposed 1 1 = .error .outOfBounds ∧
    matrix_multiply_blas one_1x1 row_1_2 out_1x2_transposed 1 1
      = .ok ⟨1, 2, true, [6, 8]⟩ :=
  ⟨⟨by decide, by decide, by decide, by decide, by decide, by decide⟩,
    ⟨by decide, by decide, by decide⟩,
    by with_unfolding_all rfl, by with_unfolding_all rfl⟩

end ClaimsAccessExamples

section Blas

variable {α : Type} [Add α] [Mul α]

theorem cblas_dgemm_term_run (transA transB : Bool) (A : List α) (lda : Nat) (B : List α)
    (ldb : Nat) (i j : Nat) (a b : Nat → α) (ls : List Nat)
    (ha : ∀ l ∈ ls, rd A (if transA then l * lda + i else i * lda + l) = .ok (a l))
    (hb : ∀ l ∈ ls, rd B (if transB then j * ldb + l else l * ldb + j) = .ok (b l))
    (t : α) :
    ls.foldlM (cblas_dgemm_term transA transB A lda B ldb i j) t
      = .ok (ls.foldl (fun s l => s + a l * b l) t) := by
  induction ls generalizing t with
  | nil => rfl
  | cons l ls ih =>
    rw [List.foldlM_cons]
    have hstep : cblas_dgemm_term transA transB A lda B ldb i j t l = .ok (t + a l * b l) := by
      simp [cblas_dgemm_term, ha l (List.mem_cons_self _ _), hb l (List.mem_cons_self _ _)]
    rw [hstep, bind_ok, ih (fun l' hl' => ha l' (List.mem_cons_of_mem _ hl'))
      (fun l' hl' => hb l' (List.mem_cons_of_mem _ hl')), List.foldl_cons]

theorem cblas_dgemm_cell_run [Zero α] [DecidableEq α] (transA transB : Bool) (K : Nat)
    (alpha : α) (A : List α) (lda : Nat) (B : List α) (ldb : Nat) (beta : α) (ldc : Nat)
    (i j : Nat) (a b : Nat → α)
    (ha : ∀ l, l < K → rd A (if transA then l * lda + i else i * lda + l) = .ok (a l))
    (hb : ∀ l, l < K → rd B (if transB then j * ldb + l else l * ldb + j) = .ok (b l))
    (C : List α) (c : α) (hc : C[i * ldc + j]? = some c) :
    cblas_dgemm_cell transA transB K alpha A lda B ldb beta ldc C (i, j)
      = .ok (C.set (i * ldc + j)
          (if beta = 0 then alpha * (List.range K).foldl (fun s l => s + a l * b l) 0
           else alpha * (List.range K).foldl (fun s l => s + a l * b l) 0 + beta * c)) := by
  have hlt : i * ldc + j < C.length := (List.getElem?_eq_some.mp hc).1
  unfold cblas_dgemm_cell
  rw [cblas_dgemm_term_run transA transB A lda B ldb i j a b _
    (fun l hl => ha l (List.mem_range.mp hl)) (fun l hl => hb l (List.mem_range.mp hl)), bind_ok]
  by_cases hbeta : beta = 0
  · simp only [hbeta, if_true]
    exact wr_of_lt _ hlt
  · simp only [hbeta, if_false, rd_of_getElem? hc, bind_ok]
    exact wr_of_lt _ hlt

/-- The whole of `cblas_dgemm` on an `M × N` result with `ldc = N`. -/
theorem cblas_dgemm_run [Zero α] [DecidableEq α] (transA transB : Bool) (M N K : Nat)
    (alpha : α) (A : List α) (lda : Nat) (B : List α) (ldb : Nat) (beta : α) (C : List α)
    (a b : Nat → Nat → α)
    (ha : ∀ i l, i < M → l < K →
      rd A (if transA then l * lda + i else i * lda + l) = .ok (a i l))
    (hb : ∀ l j, l < K → j < N →
      rd B (if transB then j * ldb + l else l * ldb + j) = .ok (b l j))
    (hC : C.length = M * N) :
    ∃ d', cblas_dgemm transA transB M N K alpha A lda B ldb beta C N = .ok d' ∧
      d'.length = C.length ∧
      (∀ i j, i < M → j < N → ∀ c, C[i * N + j]? = some c →
        d'[i * N + j]? = some
          (if beta = 0 then alpha * (List.range K).foldl (fun s l => s + a i l * b l j) 0
           else alpha * (List.range K).foldl (fun s l => s + a i l * b l j) 0 + beta * c)) ∧
      (∀ o, (∀ i j, i < M → j < N → i * N + j ≠ o) → d'[o]? = C[o]?) := by
  have hcells : ∀ ij ∈ List.product (List.range M) (List.range N), ij.1 < M ∧ ij.2 < N := by
    intro ij hij
    obtain ⟨i, j⟩ := ij
    have := List.mem_product.mp hij
    exact ⟨List.mem_range.mp this.1, List.mem_range.mp this.2⟩
  obtain ⟨d', hrun, hlen, hvis, hrest⟩ := foldlM_cells (fun d : List α => d)
    (fun ij : Nat × Nat => ij.1 * N + ij.2)
    (fun ij c =>
      if beta = 0 then alpha * (List.range K).foldl (fun s l => s + a ij.1 l * b l ij.2) 0
      else alpha * (List.range K).foldl (fun s l => s + a ij.1 l * b l ij.2) 0 + beta * c)
    (cblas_dgemm_cell transA transB K alpha A lda B ldb beta N)
    (List.product (List.range M) (List.range N))
    (by
      intro d ij hij v hv
      obtain ⟨hi, hj⟩ := hcells ij hij
      exact cblas_dgemm_cell_run transA transB K alpha A lda B ldb beta N ij.1 ij.2
        (a ij.1) (fun l => b l ij.2) (fun l hl => ha ij.1 l hi hl)
        (fun l hl => hb l ij.2 hl hj) d v hv)
    (by
      apply List.Nodup.map_on
      · intro x hx y hy hxy
        obtain ⟨e1, e2⟩ := offset_inj (hcells x hx).2 (hcells y hy).2 hxy
        exact Prod.ext e1 e2
      · exact List.Nodup.product (List.nodup_range _) (List.nodup_range _))
    C
    (by
      intro ij hij
      obtain ⟨hi, hj⟩ := hcells ij hij
      rw [hC]
      exact offset_lt hi hj)
  refine ⟨d', ?_, hlen, ?_, ?_⟩
  · unfold cblas_dgemm
    rw [foldlM_product (cblas_dgemm_cell transA transB K alpha A lda B ldb beta N)]
    exact hrun
  · intro i j hi hj c hc
    exact hvis (i, j) (List.mem_product.mpr ⟨List.mem_range.mpr hi, List.mem_range.mpr hj⟩) c hc
  · intro o ho
    exact hrest o (fun ij hij => ho ij.1 ij.2 (hcells ij hij).1 (hcells ij hij).2)

end Blas

section ClaimsBackends

theorem foldl_products (a b : Nat → ℚ) (K : Nat) :
    (List.range K).foldl (fun s l => s + a l * b l) 0 = ∑ l in Finset.range K, a l * b l := by
  induction K with
  | zero => rfl
  | succ K ih => rw [List.range_succ, List.foldl_append, ih, Finset.sum_range_succ]; rfl

/-- On an untransposed output holding numbers the two backends agree: for every `A`,
`B` (any transpose flags) and every `alpha`, `beta` satisfying the preconditions, the
BLAS-backed body and the portable triple loop both complete and return the same
matrix, over exact arithmetic. -/
theorem matrix_multiply_backends_agree (A B C : Matrix ℚ) (alpha beta : ℚ)
    (hA : A.WF) (hB : B.WF) (hC : C.WF)
    (h1 : A.second_dim = B.first_dim) (h2 : A.first_dim = C.m) (h3 : B.second_dim = C.n)
    (hCt : C.trans = false) :
    ∃ C', matrix_multiply_blas A B C alpha beta = .ok C' ∧
      matrix_multiply A B C alpha beta = .ok C' := by
  have hidx : ∀ i j, C.index i j = i * C.n + j := by
    intro i j
    unfold Matrix.index
    rw [hCt]
    rfl
  obtain ⟨dp, hrunp, hlenp, hvisp, hrestp⟩ := matrix_multiply_run A B C alpha beta
    A.peek B.peek (fun i k hi hk => Matrix.get_peek hA hi hk)
    (fun k j hk hj => Matrix.get_peek hB hk hj) hC h1 h2 h3 (Or.inl hCt)
  obtain ⟨db, hrunb, hlenb, hvisb, hrestb⟩ := cblas_dgemm_run A.trans B.trans C.m C.n
    A.second_dim alpha A.raw A.n B.raw B.n beta C.raw A.peek B.peek
    (fun i l hi hl => Matrix.get_peek hA (h2 ▸ hi) hl)
    (fun l j hl hj => Matrix.get_peek hB (h1 ▸ hl) (h3 ▸ hj)) hC
  have hd : db = dp := by
    apply List.ext_getElem?
    intro o
    by_cases hex : ∃ i j, i < C.m ∧ j < C.n ∧ i * C.n + j = o
    · obtain ⟨i, j, hi, hj, rfl⟩ := hex
      obtain ⟨hi', hj'⟩ := Matrix.logical_of_physical (Or.inl hCt) hi hj
      have hc := Matrix.peek_eq hC hi' hj'
      rw [hidx] at hc
      have ep := hvisp i j hi hj _ (by rw [hidx]; exact hc)
      rw [hidx, foldl_accumulate alpha (mul_zero _)] at ep
      rw [hvisb i j hi hj _ hc, ep, foldl_products]
      congr 1
      by_cases hbeta : beta = 0
      · simp [hbeta]
      · simp only [hbeta, if_false]
        ring
    · rw [hrestb o (fun i j hi hj heq => hex ⟨i, j, hi, hj, heq⟩),
        hrestp o (fun i j hi hj heq => hex ⟨i, j, hi, hj, (hidx i j) ▸ heq⟩)]
      rfl
  refine ⟨C.withData dp, ?_, hrunp⟩
  have e1 : (A.second_dim == B.first_dim) = true := by rw [h1]; exact beq_self_eq_true _
  have e2 : (A.first_dim == C.m) = true := by rw [h2]; exact beq_self_eq_true _
  have e3 : (B.second_dim == C.n) = true := by rw [h3]; exact beq_self_eq_true _
  simp only [matrix_multiply_blas, assert, e1, e2, e3, if_true, bind_ok]
  rw [hrunb, hd]
  rfl

/-- C10: the two bodies disagree on inputs both accept.  On a zero-filled 2×2 `C` with
its flag set, `A` the 2×1 matrix of ones and `B = [1, 2]`, the preconditions hold; the
BLAS-backed body leaves the buffer `[1, 2, 1, 2]`, the portable body, which writes
through `C.set`, leaves `[1, 1, 2, 2]`.  And on an untransposed 1×1 output holding NaN
with `beta = 0`, the BLAS-backed body does not read `C` and leaves `[2]`, the portable
body computes `0 * NaN` and leaves `[NaN]`. -/
theorem matrix_multiply_backends_disagree :
    ((ones_2x1.WF ∧ row_1_2.WF ∧ out_2x2_transposed.WF ∧
        ones_2x1.second_dim = row_1_2.first_dim ∧ ones_2x1.first_dim = out_2x2_transposed.m ∧
        row_1_2.second_dim = out_2x2_transposed.n) ∧
      matrix_multiply_blas ones_2x1 row_1_2 out_2x2_transposed 1 0
        = .ok ⟨2, 2, true, [1, 2, 1, 2]⟩ ∧
      matrix_multiply ones_2x1 row_1_2 out_2x2_transposed 1 0
        = .ok ⟨2, 2, true, [1, 1, 2, 2]⟩) ∧
    ((one_1x1_dbl.WF ∧ nan_1x1.WF ∧ nan_1x1.trans = false ∧
        one_1x1_dbl.second_dim = one_1x1_dbl.first_dim ∧ one_1x1_dbl.first_dim = nan_1x1.m ∧
        one_1x1_dbl.second_dim = nan_1x1.n) ∧
      matrix_multiply_blas one_1x1_dbl one_1x1_dbl nan_1x1 (.fin 2) 0
        = .ok ⟨1, 1, false, [.fin 2]⟩ ∧
      matrix_multiply one_1x1_dbl one_1x1_dbl nan_1x1 (.fin 2) 0
        = .ok ⟨1, 1, false, [.nan]⟩) :=
  ⟨⟨⟨by decide, by decide, by decide, by decide, by decide, by decide⟩,
      by with_unfolding_all rfl, by with_unfolding_all rfl⟩,
    ⟨⟨by decide, by decide, by decide, by decide, by decide, by decide⟩,
      by with_unfolding_all rfl, by with_unfolding_all rfl⟩⟩

end ClaimsBackends

/-! ## The elementwise operators and the reductions -/

section Elementwise

variable {α : Type}

/-- A loop `for i < N` whose body is `d[i] = op(src[i], d[i])`: the call completes and
every position below `N` holds `op` of the source value and its old value. -/
theorem foldlM_pointwise (src : List α) (op : α → α → α)
    (step : List α → Nat → Except Fault (List α)) (N : Nat)
    (hstep : ∀ d i s v, src[i]? = some s → d[i]? = some v → step d i = .ok (d.set i (op s v)))
    (d : List α) (hsrc : N ≤ src.length) (hd : d.length = N) :
    ∃ d', (List.range N).foldlM step d = .ok d' ∧ d'.length = N ∧
      ∀ i, i < N → ∀ s v, src[i]? = some s → d[i]? = some v → d'[i]? = some (op s v) := by
  obtain ⟨d', hrun, hlen, hvis, -⟩ := foldlM_cells (fun e : List α => e) (fun i : Nat => i)
    (fun i v => op (src.getD i v) v) step (List.range N)
    (by
      intro e i hi v hv
      have hlt : i < src.length := Nat.lt_of_lt_of_le (List.mem_range.mp hi) hsrc
      have hs : src[i]? = some (src.getD i v) := by
        rw [List.getD_eq_getElem?_getD, List.getElem?_eq_getElem hlt, Option.getD_some]
      exact hstep e i _ v hs hv)
    (by rw [List.map_id']; exact List.nodup_range _)
    d
    (by intro i hi; rw [hd]; exact List.mem_range.mp hi)
  refine ⟨d', hrun, hlen.trans hd, ?_⟩
  intro i hi s v hs hv
  rw [hvis i (List.mem_range.mpr hi) v hv, List.getD_eq_getElem?_getD, hs, Option.getD_some]

/-- A loop that only accumulates: it completes with the pure fold. -/
theorem foldlM_pure {σ ι : Type} (step : σ → ι → Except Fault σ) (f : σ → ι → σ)
    (l : List ι) (h : ∀ s, ∀ i ∈ l, step s i = .ok (f s i)) (s : σ) :
    l.foldlM step s = .ok (l.foldl f s) := by
  induction l generalizing s with
  | nil => rfl
  | cons i l ih =>
    rw [List.foldlM_cons, h s i (List.mem_cons_self _ _), bind_ok, List.foldl_cons]
    exact ih (fun s' i' hi' => h s' i' (List.mem_cons_of_mem _ hi')) _

theorem getElem?_getD_of_lt [Inhabited α] (l : List α) (i : Nat) (h : i < l.length) :
    l[i]? = some ((l[i]?).getD default) := by
  rw [List.getElem?_eq_getElem h, Option.getD_some]

theorem matrix_psubdivide_run [Div α] (A B : Matrix α) (hA : A.WF) (hB : B.WF)
    (hm : A.m = B.m) (hn : A.n = B.n) :
    ∃ d', matrix_psubdivide A B = .ok (B.withData d') ∧ d'.length = A.m * A.n ∧
      ∀ i, i < A.m * A.n → ∀ a b, A.data[i]? = some a → B.data[i]? = some b →
        d'[i]? = some (a / b) := by
  obtain ⟨d', hrun, hlen, hvis⟩ := foldlM_pointwise A.data (fun a b => a / b)
    (matrix_psubdivide_step A.raw) (A.m * A.n)
    (by
      intro d i s v hs hv
      have hlt : i < d.length := (List.getElem?_eq_some.mp hv).1
      simp [matrix_psubdivide_step, Matrix.raw, rd_of_getElem? hs, rd_of_getElem? hv,
        wr_of_lt _ hlt])
    B.data (Nat.le_of_eq hA.symm) (by rw [hm, hn]; exact hB)
  refine ⟨d', ?_, hlen, hvis⟩
  have e1 : (A.m == B.m) = true := by rw [hm]; exact beq_self_eq_true _
  have e2 : (A.n == B.n) = true := by rw [hn]; exact beq_self_eq_true _
  simp only [matrix_psubdivide, assert, e1, e2, if_true, bind_ok]
  simp only [Matrix.raw] at hrun ⊢
  rw [hrun]
  rfl

theorem matrix_copy_run (A B : Matrix α) (hA : A.WF) (hB : B.WF)
    (hm : A.m = B.m) (hn : A.n = B.n) :
    matrix_copy A B = .ok (B.withData A.data) := by
  obtain ⟨d', hrun, hlen, hvis⟩ := foldlM_pointwise A.data (fun a _ => a)
    (matrix_copy_step A.raw) (A.m * A.n)
    (by
      intro d i s v hs hv
      have hlt : i < d.length := (List.getElem?_eq_some.mp hv).1
      simp [matrix_copy_step, Matrix.raw, rd_of_getElem? hs, wr_of_lt _ hlt])
    B.data (Nat.le_of_eq hA.symm) (by rw [hm, hn]; exact hB)
  have hd : d' = A.data := by
    apply List.ext_getElem?
    intro i
    by_cases hi : i < A.m * A.n
    · have hiA : i < A.data.length := by rw [hA]; exact hi
      have hiB : i < B.data.length := by rw [hB, ← hm, ← hn]; exact hi
      rw [hvis i hi _ _ (List.getElem?_eq_getElem hiA) (List.getElem?_eq_getElem hiB),
        List.getElem?_eq_getElem hiA]
    · rw [List.getElem?_eq_none (by omega), List.getElem?_eq_none (by rw [hA]; omega)]
  have e1 : (A.m == B.m) = true := by rw [hm]; exact beq_self_eq_true _
  have e2 : (A.n == B.n) = true := by rw [hn]; exact beq_self_eq_true _
  simp only [matrix_copy, assert, e1, e2, if_true, bind_ok]
  simp only [Matrix.raw] at hrun ⊢
  rw [hrun, hd]
  rfl

theorem matrix_add_run [Add α] [Mul α] (x y : Matrix α) (alpha : α) (hx : x.WF) (hy : y.WF)
    (h : x.m * x.n = y.m * y.n) :
    ∃ d', matrix_add x alpha y = .ok (x.withData d') ∧ d'.length = x.m * x.n ∧
      ∀ i, i < x.m * x.n → ∀ a b, x.data[i]? = some a → y.data[i]? = some b →
        d'[i]? = some (a + alpha * b) := by
  obtain ⟨d', hrun, hlen, hvis⟩ := foldlM_pointwise y.data (fun b a => a + alpha * b)
    (matrix_add_step alpha y.raw) (x.m * x.n)
    (by
      intro d i s v hs hv
      have hlt : i < d.length := (List.getElem?_eq_some.mp hv).1
      simp [matrix_add_step, Matrix.raw, rd_of_getElem? hs, rd_of_getElem? hv,
        wr_of_lt _ hlt])
    x.data (by rw [hy, h]) hx
  refine ⟨d', ?_, hlen, fun i hi a b ha hb => hvis i hi b a hb ha⟩
  have e1 : (x.m * x.n == y.m * y.n) = true := by rw [h]; exact beq_self_eq_true _
  simp only [matrix_add, assert, e1, if_true, bind_ok]
  simp only [Matrix.raw] at hrun ⊢
  rw [hrun]
  rfl

theorem dot_product_run [Zero α] [Add α] [Mul α] [Inhabited α] (A B : Matrix α)
    (hA : A.WF) (hB : B.WF) (h : A.m * A.n = B.m * B.n) :
    dot_product A B = .ok ((List.range (A.m * A.n)).foldl
      (fun s i => s + (A.data[i]?).getD default * (B.data[i]?).getD default) 0) := by
  have e1 : (A.m * A.n == B.m * B.n) = true := by rw [h]; exact beq_self_eq_true _
  simp only [dot_product, assert, e1, if_true, bind_ok]
  apply foldlM_pure
  intro s i hi
  have hi' : i < A.m * A.n := List.mem_range.mp hi
  have ha := getElem?_getD_of_lt A.data i (by rw [hA]; exact hi')
  have hb := getElem?_getD_of_lt B.data i (by rw [hB, ← h]; exact hi')
  simp [dot_product_step, Matrix.raw, rd_of_getElem? ha, rd_of_getElem? hb]

theorem matrix_mse_run [Zero α] [Add α] [Sub α] [Mul α] [Div α] [NatCast α] [Inhabited α]
    (A B : Matrix α) (hA : A.WF) (hB : B.WF) (hm : A.m = B.m) (hn : A.n = B.n) :
    matrix_mse A B = .ok ((List.range (A.m * A.n)).foldl
      (fun s i => s + ((A.data[i]?).getD default - (B.data[i]?).getD default)
        * ((A.data[i]?).getD default - (B.data[i]?).getD default)) 0
      / ((A.m * A.n : Nat) : α)) := by
  have e1 : (A.m == B.m) = true := by rw [hm]; exact beq_self_eq_true _
  have e2 : (A.n == B.n) = true := by rw [hn]; exact beq_self_eq_true _
  simp only [matrix_mse, assert, e1, e2, if_true, bind_ok]
  rw [foldlM_pure (matrix_mse_step A.raw B.raw)
    (fun s i => s + ((A.data[i]?).getD default - (B.data[i]?).getD default)
        * ((A.data[i]?).getD default - (B.data[i]?).getD default))]
  · rfl
  · intro s i hi
    have hi' : i < A.m * A.n := List.mem_range.mp hi
    have ha := getElem?_getD_of_lt A.data i (by rw [hA]; exact hi')
    have hb := getElem?_getD_of_lt B.data i (by rw [hB, ← hm, ← hn]; exact hi')
    simp [matrix_mse_step, Matrix.raw, rd_of_getElem? ha, rd_of_getElem? hb]

end Elementwise

section ClaimsElementwise

/-- C11.  `matrix_psubdivide(A, B)` sets `B ← A / B` elementwise: for every pair of
equal-shaped matrices (`A.m==B.m`, `A.n==B.n`) the call completes, keeps the shape and
flag of `B`, and `B[i] = A[i] / B_old[i]` for every physical index `i < m*n`.  The
division is whatever `/` the value type has; `A` is a `const` operand that the function
only reads. -/
theorem matrix_psubdivide_elementwise {α : Type} [Div α] (A B : Matrix α)
    (hA : A.WF) (hB : B.WF) (hm : A.m = B.m) (hn : A.n = B.n) :
    ∃ B', matrix_psubdivide A B = .ok B' ∧
      B'.m = B.m ∧ B'.n = B.n ∧ B'.trans = B.trans ∧ B'.raw.length = B.raw.length ∧
      ∀ i, i < A.m * A.n →
        ∃ a b, A.raw[i]? = some a ∧ B.raw[i]? = some b ∧ B'.raw[i]? = some (a / b) := by
  obtain ⟨d', hrun, hlen, hvis⟩ := matrix_psubdivide_run A B hA hB hm hn
  refine ⟨B.withData d', hrun, rfl, rfl, rfl, ?_, ?_⟩
  · show d'.length = B.data.length
    rw [hlen, hB, hm, hn]
  · intro i hi
    have hiA : i < A.data.length := by rw [hA]; exact hi
    have hiB : i < B.data.length := by rw [hB, ← hm, ← hn]; exact hi
    exact ⟨A.data[i], B.data[i], List.getElem?_eq_getElem hiA, List.getElem?_eq_getElem hiB,
      hvis i hi _ _ (List.getElem?_eq_getElem hiA) (List.getElem?_eq_getElem hiB)⟩

/-- C11, test case 5: `A=[[-3,1,1],[1,-1,4]]`, `B=[[2,1,1],[-1.1,-1,3]]` gives
`B=[[-1.5,1,1],[-10/11,1,4/3]]`. -/
theorem matrix_psubdivide_elementwise_witness :
    (tc5_a.WF ∧ tc5_b.WF ∧ tc5_a.m = tc5_b.m ∧ tc5_a.n = tc5_b.n) ∧
    (∃ B', matrix_psubdivide tc5_a tc5_b = .ok B' ∧
      B'.m = tc5_b.m ∧ B'.n = tc5_b.n ∧ B'.trans = tc5_b.trans ∧
      B'.raw.length = tc5_b.raw.length ∧
      ∀ i, i < tc5_a.m * tc5_a.n →
        ∃ a b, tc5_a.raw[i]? = some a ∧ tc5_b.raw[i]? = some b ∧
          B'.raw[i]? = some (a / b)) ∧
    matrix_psubdivide tc5_a tc5_b = .ok ⟨2, 3, false, [-3 / 2, 1, 1, -10 / 11, 1, 4 / 3]⟩ :=
  ⟨⟨by decide, by decide, by decide, by decide⟩,
    matrix_psubdivide_elementwise tc5_a tc5_b (by decide) (by decide) (by decide) (by decide),
    by with_unfolding_all rfl⟩

theorem replicate_get {α : Type} (M : Matrix α) (v : α)
    (hd : M.data = List.replicate (M.m * M.n) v) {i j : Nat}
    (hi : i < M.first_dim) (hj : j < M.second_dim) : M.get i j = .ok v := by
  apply rd_of_getElem?
  rw [hd, List.getElem?_replicate]
  simp [Matrix.index_lt_mul M hi hj]

/-- C12.  `matrix_copy(A, B)` copies the physical buffer and nothing else: for every
`A` and `B` with `A.m==B.m` and `A.n==B.n` the call completes and returns `B` with its
own shape and flag and with the buffer of `A`, element for element.  `A` is a `const`
operand that the function only reads, and the copy is by value: the function writes
through `dataB` and rebinds no buffer, so the two buffers stay distinct. -/
theorem matrix_copy_buffer {α : Type} (A B : Matrix α)
    (hA : A.WF) (hB : B.WF) (hm : A.m = B.m) (hn : A.n = B.n) :
    ∃ B', matrix_copy A B = .ok B' ∧
      B'.m = B.m ∧ B'.n = B.n ∧ B'.trans = B.trans ∧ B'.raw = A.raw ∧
      ∀ i, i < A.m * A.n → ∃ a, A.raw[i]? = some a ∧ B'.raw[i]? = some a := by
  refine ⟨B.withData A.data, matrix_copy_run A B hA hB hm hn, rfl, rfl, rfl, rfl, ?_⟩
  intro i hi
  have hiA : i < A.data.length := by rw [hA]; exact hi
  exact ⟨A.data[i], List.getElem?_eq_getElem hiA, List.getElem?_eq_getElem hiA⟩

theorem tc4_a_wf : tc4_a.WF := by
  simp [Matrix.WF, tc4_a, Matrix.one_fill, Matrix.withData]

theorem tc4_b_wf : tc4_b.WF := by
  simp [Matrix.WF, tc4_b]

/-- C12, test case 4: the 11×14 one-filled `a` copied into `b` makes every
`b.get(i,j)` equal `1`. -/
theorem matrix_copy_buffer_witness :
    (tc4_a.WF ∧ tc4_b.WF ∧ tc4_a.m = tc4_b.m ∧ tc4_a.n = tc4_b.n) ∧
    (∃ B', matrix_copy tc4_a tc4_b = .ok B' ∧
      B'.m = tc4_b.m ∧ B'.n = tc4_b.n ∧ B'.trans = tc4_b.trans ∧ B'.raw = tc4_a.raw ∧
      ∀ i, i < tc4_a.m * tc4_a.n → ∃ a, tc4_a.raw[i]? = some a ∧ B'.raw[i]? = some a) ∧
    (∃ B', matrix_copy tc4_a tc4_b = .ok B' ∧
      ∀ i j, i < 11 → j < 14 → B'.get i j = .ok 1) :=
  ⟨⟨tc4_a_wf, tc4_b_wf, rfl, rfl⟩,
    matrix_copy_buffer tc4_a tc4_b tc4_a_wf tc4_b_wf rfl rfl,
    ⟨tc4_b.withData tc4_a.data, matrix_copy_run tc4_a tc4_b tc4_a_wf tc4_b_wf rfl rfl,
      fun _ _ hi hj => replicate_get (tc4_b.withData tc4_a.data) 1 rfl hi hj⟩⟩

/-- C13.  Copy is idempotent: for every pair of equal-shaped matrices `A` and `B`,
`matrix_copy(A, B)` completes, and running it again on the result leaves the same
`B`. -/
theorem matrix_copy_idempotent {α : Type} (A B : Matrix α)
    (hA : A.WF) (hB : B.WF) (hm : A.m = B.m) (hn : A.n = B.n) :
    ∃ B', matrix_copy A B = .ok B' ∧ matrix_copy A B' = .ok B' := by
  refine ⟨B.withData A.data, matrix_copy_run A B hA hB hm hn, ?_⟩
  have hB' : (B.withData A.data).WF := by
    show A.data.length = B.m * B.n
    rw [hA, hm, hn]
  exact matrix_copy_run A (B.withData A.data) hA hB' hm hn

/-- C13, test case 5: copying `a` into `b` twice. -/
theorem matrix_copy_idempotent_witness :
    (tc5_a.WF ∧ tc5_b.WF ∧ tc5_a.m = tc5_b.m ∧ tc5_a.n = tc5_b.n) ∧
    (∃ B', matrix_copy tc5_a tc5_b = .ok B' ∧ matrix_copy tc5_a B' = .ok B') ∧
    matrix_copy tc5_a tc5_b = .ok tc5_a :=
  ⟨⟨by decide, by decide, by decide, by decide⟩,
    matrix_copy_idempotent tc5_a tc5_b (by decide) (by decide) (by decide) (by decide),
    by with_unfolding_all rfl⟩

end ClaimsElementwise

section ClaimsReductions

/-- C14.  `dot_product` is commutative: for every pair of matrices with equal total
element counts (`A.m*A.n == B.m*B.n`) both calls complete and
`dot_product(A, B) = dot_product(B, A)`.  Only commutativity of `*` is used, so the two
values agree in any arithmetic whose multiplication commutes. -/
theorem dot_product_comm {α : Type} [Zero α] [Add α] [CommMagma α] (A B : Matrix α)
    (hA : A.WF) (hB : B.WF) (h : A.m * A.n = B.m * B.n) :
    ∃ v, dot_product A B = .ok v ∧ dot_product B A = .ok v := by
  haveI : Inhabited α := ⟨0⟩
  refine ⟨_, dot_product_run A B hA hB h, ?_⟩
  rw [dot_product_run B A hB hA h.symm, h]
  congr 2
  funext s i
  rw [mul_comm]

/-- C14, test case 5: both orders give `7.9`. -/
theorem dot_product_comm_witness :
    (tc5_a.WF ∧ tc5_b.WF ∧ tc5_a.m * tc5_a.n = tc5_b.m * tc5_b.n) ∧
    (∃ v, dot_product tc5_a tc5_b = .ok v ∧ dot_product tc5_b tc5_a = .ok v) ∧
    dot_product tc5_a tc5_b = .ok (79 / 10) :=
  ⟨⟨by decide, by decide, by decide⟩,
    dot_product_comm tc5_a tc5_b (by decide) (by decide) (by decide),
    by with_unfolding_all rfl⟩

/-- C15.  `dot_product` treats both operands as flat vectors: for every `A` and `B` with
`A.m*A.n == B.m*B.n` it returns `Σ_{i < A.m*A.n} A.raw[i]*B.raw[i]`, and the result is
the same for any operands holding the same buffers, whatever their physical shapes and
transpose flags.  Both operands are `const` and only read. -/
theorem dot_product_flat (A B : Matrix ℚ) (hA : A.WF) (hB : B.WF)
    (h : A.m * A.n = B.m * B.n) :
    (∃ a b : Nat → ℚ,
      (∀ i, i < A.m * A.n → A.raw[i]? = some (a i) ∧ B.raw[i]? = some (b i)) ∧
      dot_product A B = .ok (∑ i in Finset.range (A.m * A.n), a i * b i)) ∧
    (∀ A' B' : Matrix ℚ, A'.raw = A.raw → B'.raw = B.raw →
      A'.m * A'.n = A.m * A.n → B'.m * B'.n = B.m * B.n →
      dot_product A' B' = dot_product A B) := by
  constructor
  · refine ⟨fun i => (A.data[i]?).getD default, fun i => (B.data[i]?).getD default, ?_, ?_⟩
    · intro i hi
      exact ⟨getElem?_getD_of_lt A.data i (by rw [hA]; exact hi),
        getElem?_getD_of_lt B.data i (by rw [hB, ← h]; exact hi)⟩
    · rw [dot_product_run A B hA hB h, foldl_products]
  · intro A' B' hA' hB' hcA hcB
    have hdA : A'.data = A.data := hA'
    have hdB : B'.data = B.data := hB'
    have wA : A'.WF := by
      show A'.data.length = A'.m * A'.n
      rw [hdA, hcA]
      exact hA
    have wB : B'.WF := by
      show B'.data.length = B'.m * B'.n
      rw [hdB, hcB]
      exact hB
    rw [dot_product_run A' B' wA wB (by rw [hcA, hcB, h]), dot_product_run A B hA hB h,
      hdA, hdB, hcA]

/-- C15, test case 5: the 2×3 `a` against `b` held as 2×3, as a transposed 3×2 and as
6×1 gives `7.9` each time. -/
theorem dot_product_flat_witness :
    (tc5_a.WF ∧ tc5_b.WF ∧ tc5_a.m * tc5_a.n = tc5_b.m * tc5_b.n) ∧
    ((∃ a b : Nat → ℚ,
      (∀ i, i < tc5_a.m * tc5_a.n → tc5_a.raw[i]? = some (a i) ∧ tc5_b.raw[i]? = some (b i)) ∧
      dot_product tc5_a tc5_b = .ok (∑ i in Finset.range (tc5_a.m * tc5_a.n), a i * b i)) ∧
    (∀ A' B' : Matrix ℚ, A'.raw = tc5_a.raw → B'.raw = tc5_b.raw →
      A'.m * A'.n = tc5_a.m * tc5_a.n → B'.m * B'.n = tc5_b.m * tc5_b.n →
      dot_product A' B' = dot_product tc5_a tc5_b)) ∧
    dot_product tc5_a tc5_b_3x2_transposed = .ok (79 / 10) ∧
    dot_product tc5_a tc5_b_6x1 = .ok (79 / 10) :=
  ⟨⟨by decide, by decide, by decide⟩,
    dot_product_flat tc5_a tc5_b (by decide) (by decide) (by decide),
    by with_unfolding_all rfl, by with_unfolding_all rfl⟩

/-- C16.  `matrix_add(x, alpha, y)` is the scaled accumulate `x ← x + alpha*y`: for
every `x`, `y` with `x.m*x.n == y.m*y.n` the call completes, keeps the shape and flag
of `x`, and `x[i] = x_old[i] + alpha*y[i]` for every physical index `i`; and the Matrix
form of `operator+=` is this operation with `alpha = 1`, so after `x += y` every
`x[i] = x_old[i] + y[i]`.  `y` is a `const` operand that the function only reads. -/
theorem matrix_add_accumulates (x y : Matrix ℚ) (alpha : ℚ) (hx : x.WF) (hy : y.WF)
    (h : x.m * x.n = y.m * y.n) :
    (∃ x', matrix_add x alpha y = .ok x' ∧
      x'.m = x.m ∧ x'.n = x.n ∧ x'.trans = x.trans ∧ x'.raw.length = x.raw.length ∧
      ∀ i, i < x.m * x.n →
        ∃ a b, x.raw[i]? = some a ∧ y.raw[i]? = some b ∧
          x'.raw[i]? = some (a + alpha * b)) ∧
    x.operator_add_assign y = matrix_add x 1 y ∧
    (∃ x', x.operator_add_assign y = .ok x' ∧
      ∀ i, i < x.m * x.n →
        ∃ a b, x.raw[i]? = some a ∧ y.raw[i]? = some b ∧ x'.raw[i]? = some (a + b)) := by
  have hix : ∀ i, i < x.m * x.n → i < x.data.length := fun i hi => by rw [hx]; exact hi
  have hiy : ∀ i, i < x.m * x.n → i < y.data.length := fun i hi => by rw [hy, ← h]; exact hi
  refine ⟨?_, rfl, ?_⟩
  · obtain ⟨d', hrun, hlen, hvis⟩ := matrix_add_run x y alpha hx hy h
    refine ⟨x.withData d', hrun, rfl, rfl, rfl, ?_, ?_⟩
    · show d'.length = x.data.length
      rw [hlen, hx]
    · intro i hi
      have hxi : i < x.data.length := hix i hi
      have hyi : i < y.data.length := hiy i hi
      exact ⟨x.data[i], y.data[i], List.getElem?_eq_getElem hxi, List.getElem?_eq_getElem hyi,
        hvis i hi _ _ (List.getElem?_eq_getElem hxi) (List.getElem?_eq_getElem hyi)⟩
  · obtain ⟨d', hrun, -, hvis⟩ := matrix_add_run x y 1 hx hy h
    refine ⟨x.withData d', hrun, ?_⟩
    intro i hi
    have hxi : i < x.data.length := hix i hi
    have hyi : i < y.data.length := hiy i hi
    refine ⟨x.data[i], y.data[i], List.getElem?_eq_getElem hxi, List.getElem?_eq_getElem hyi, ?_⟩
    have := hvis i hi _ _ (List.getElem?_eq_getElem hxi) (List.getElem?_eq_getElem hyi)
    rw [one_mul] at this
    exact this

/-- C16, on the matrices of test case 5: `a + 2*b`, and `a += b` with `b` held as a
6×1 column. -/
theorem matrix_add_accumulates_witness :
    (tc5_a.WF ∧ tc5_b_6x1.WF ∧ tc5_a.m * tc5_a.n = tc5_b_6x1.m * tc5_b_6x1.n) ∧
    ((∃ x', matrix_add tc5_a 2 tc5_b_6x1 = .ok x' ∧
      x'.m = tc5_a.m ∧ x'.n = tc5_a.n ∧ x'.trans = tc5_a.trans ∧
      x'.raw.length = tc5_a.raw.length ∧
      ∀ i, i < tc5_a.m * tc5_a.n →
        ∃ a b, tc5_a.raw[i]? = some a ∧ tc5_b_6x1.raw[i]? = some b ∧
          x'.raw[i]? = some (a + 2 * b)) ∧
    tc5_a.operator_add_assign tc5_b_6x1 = matrix_add tc5_a 1 tc5_b_6x1 ∧
    (∃ x', tc5_a.operator_add_assign tc5_b_6x1 = .ok x' ∧
      ∀ i, i < tc5_a.m * tc5_a.n →
        ∃ a b, tc5_a.raw[i]? = some a ∧ tc5_b_6x1.raw[i]? = some b ∧
          x'.raw[i]? = some (a + b))) ∧
    matrix_add tc5_a 2 tc5_b_6x1 = .ok ⟨2, 3, false, [1, 3, 3, -6 / 5, -3, 10]⟩ ∧
    tc5_a.operator_add_assign tc5_b_6x1 = .ok ⟨2, 3, false, [-1, 2, 2, -1 / 10, -2, 7]⟩ :=
  ⟨⟨by decide, by decide, by decide⟩,
    matrix_add_accumulates tc5_a tc5_b_6x1 2 (by decide) (by decide) (by decide),
    by with_unfolding_all rfl, by with_unfolding_all rfl⟩

theorem foldl_squares (a b : Nat → ℚ) (N : Nat) :
    (List.range N).foldl (fun s i => s + (a i - b i) * (a i - b i)) 0
      = ∑ i in Finset.range N, (a i - b i) ^ 2 := by
  rw [foldl_products (fun i => a i - b i) (fun i => a i - b i)]
  exact Finset.sum_congr rfl (fun i _ => (sq _).symm)

/-- C17.  `matrix_mse(A, B)` is a pure reduction returning the mean squared error: for
every pair of equal-shaped non-empty matrices (`A.m==B.m`, `A.n==B.n`, `m*n > 0`) the
call completes with `(Σ_{i < m*n} (A[i]-B[i])^2) / (m*n)`.  It returns a number and
writes to neither buffer. -/
theorem matrix_mse_mean (A B : Matrix ℚ) (hA : A.WF) (hB : B.WF)
    (hm : A.m = B.m) (hn : A.n = B.n) (_hne : 0 < A.m * A.n) :
    ∃ a b : Nat → ℚ,
      (∀ i, i < A.m * A.n → A.raw[i]? = some (a i) ∧ B.raw[i]? = some (b i)) ∧
      matrix_mse A B
        = .ok ((∑ i in Finset.range (A.m * A.n), (a i - b i) ^ 2) / ((A.m * A.n : ℕ) : ℚ)) := by
  refine ⟨fun i => (A.data[i]?).getD default, fun i => (B.data[i]?).getD default, ?_, ?_⟩
  · intro i hi
    exact ⟨getElem?_getD_of_lt A.data i (by rw [hA]; exact hi),
      getElem?_getD_of_lt B.data i (by rw [hB, ← hm, ← hn]; exact hi)⟩
  · rw [matrix_mse_run A B hA hB hm hn, foldl_squares]

/-- C17, test case 5: the mean squared error of `a` and `b` is `3041/600`. -/
theorem matrix_mse_mean_witness :
    (tc5_a.WF ∧ tc5_b.WF ∧ tc5_a.m = tc5_b.m ∧ tc5_a.n = tc5_b.n ∧ 0 < tc5_a.m * tc5_a.n) ∧
    (∃ a b : Nat → ℚ,
      (∀ i, i < tc5_a.m * tc5_a.n → tc5_a.raw[i]? = some (a i) ∧ tc5_b.raw[i]? = some (b i)) ∧
      matrix_mse tc5_a tc5_b
        = .ok ((∑ i in Finset.range (tc5_a.m * tc5_a.n), (a i - b i) ^ 2)
            / ((tc5_a.m * tc5_a.n : ℕ) : ℚ))) ∧
    matrix_mse tc5_a tc5_b = .ok (3041 / 600) :=
  ⟨⟨by decide, by decide, by decide, by decide, by decide⟩,
    matrix_mse_mean tc5_a tc5_b (by decide) (by decide) (by decide) (by decide) (by decide),
    by with_unfolding_all rfl⟩

end ClaimsReductions

section ClaimsView

/-- C18.  Transpose is an involutive view: for every matrix and every index pair,
`transpose()` applied twice restores the matrix, hence the `get(i,j)` results and
`first_dim()`/`second_dim()`; a single `transpose()` gives `get(i,j)` equal to the
previous `get(j,i)` with `first_dim` and `second_dim` swapped; and the physical buffer
and the physical `m`, `n` never change. -/
theorem transpose_involutive_view {α : Type} (A : Matrix α) (i j : Nat) :
    (A.transpose.transpose = A ∧ A.transpose.transpose.get i j = A.get i j ∧
      A.transpose.transpose.first_dim = A.first_dim ∧
      A.transpose.transpose.second_dim = A.second_dim) ∧
    (A.transpose.get i j = A.get j i ∧ A.transpose.first_dim = A.second_dim ∧
      A.transpose.second_dim = A.first_dim) ∧
    (A.transpose.raw = A.raw ∧ A.transpose.m = A.m ∧ A.transpose.n = A.n) := by
  have hAA : A.transpose.transpose = A := by
    cases A with
    | mk m n t d => simp [Matrix.transpose]
  refine ⟨⟨hAA, ?_, ?_, ?_⟩,
    ⟨Matrix.transpose_get A i j, Matrix.transpose_first_dim A, Matrix.transpose_second_dim A⟩,
    ⟨rfl, rfl, rfl⟩⟩
  · rw [hAA]
  · rw [hAA]
  · rw [hAA]

theorem Matrix.index_column {α : Type} (M : Matrix α) (ht : M.trans = false) (hn : M.n = 1)
    (i : Nat) : M.index i 0 = i := by
  unfold Matrix.index
  rw [ht, hn]
  simp

/-- C19.  `matrix_vector_multiply` is the one-column case of `matrix_multiply`: for
every `A` (transpose flag set or clear), every untransposed k×1 `x` and untransposed
m×1 `y` with `A.second_dim()==k` and `A.first_dim()==m`, and every `alpha` and `beta`,
both calls complete and leave the same `y`.  Only commutativity of `*` is used (for
`y*beta` against `beta*y`), so the two agree rounding and all. -/
theorem matrix_vector_multiply_is_matrix_multiply {α : Type} [Add α] [CommMagma α]
    [Inhabited α] (A x y : Matrix α) (alpha beta : α)
    (hA : A.WF) (hx : x.WF) (hy : y.WF)
    (hxt : x.trans = false) (hxn : x.n = 1) (hyt : y.trans = false) (hyn : y.n = 1)
    (h1 : A.second_dim = x.m) (h2 : A.first_dim = y.m) :
    ∃ y', matrix_vector_multiply A x y alpha beta = .ok y' ∧
      matrix_multiply A x y alpha beta = .ok y' := by
  have hxf : x.first_dim = x.m := by unfold Matrix.first_dim; rw [hxt]; rfl
  have hxs : x.second_dim = 1 := by unfold Matrix.second_dim; rw [hxt]; exact hxn
  have hxcol : ∀ k, k < A.second_dim → x.data[k]? = some (x.peek k 0) := by
    intro k hk
    have hk' : k < x.first_dim := by rw [hxf, ← h1]; exact hk
    have h0 : 0 < x.second_dim := by rw [hxs]; decide
    have := Matrix.peek_eq hx hk' h0
    rw [Matrix.index_column x hxt hxn] at this
    exact this
  obtain ⟨dv, hrunv, hlenv, hvisv⟩ := matrix_vector_multiply_run A x y alpha beta A.peek
    (fun k => x.peek k 0) (fun i j hi hj => Matrix.get_peek hA hi hj) hxcol hy h1 h2 hxn hyn
  obtain ⟨dp, hrunp, hlenp, hvisp, -⟩ := matrix_multiply_run A x y alpha beta A.peek x.peek
    (fun i k hi hk => Matrix.get_peek hA hi hk) (fun k j hk hj => Matrix.get_peek hx hk hj)
    hy (h1.trans hxf.symm) h2 (hxs.trans hyn.symm) (Or.inl hyt)
  have hylen : y.data.length = y.m := by
    have : y.data.length = y.m * y.n := hy
    rw [this, hyn, Nat.mul_one]
  have hd : dv = dp := by
    apply List.ext_getElem?
    intro o
    by_cases ho : o < y.m
    · have hoy : o < y.data.length := by rw [hylen]; exact ho
      have hc : y.data[o]? = some y.data[o] := List.getElem?_eq_getElem hoy
      have ep := hvisp o 0 ho (by rw [hyn]; decide) y.data[o]
        (by rw [Matrix.index_column y hyt hyn]; exact hc)
      rw [Matrix.index_column y hyt hyn] at ep
      rw [hvisv o (h2 ▸ ho) _ hc, ep, mul_comm]
    · rw [List.getElem?_eq_none (by omega), List.getElem?_eq_none (by omega)]
  exact ⟨y.withData dv, hrunv, by rw [hd]; exact hrunp⟩

/-- C19, test case 6 with `alpha = 3`, `beta = 5`: both operators turn `y = [3,-8]`
into `[3,-25]`. -/
theorem matrix_vector_multiply_is_matrix_multiply_witness :
    (tc6_a.WF ∧ tc6_x.WF ∧ tc6_y.WF ∧ tc6_x.trans = false ∧ tc6_x.n = 1 ∧
      tc6_y.trans = false ∧ tc6_y.n = 1 ∧ tc6_a.second_dim = tc6_x.m ∧
      tc6_a.first_dim = tc6_y.m) ∧
    (∃ y', matrix_vector_multiply tc6_a tc6_x tc6_y 3 5 = .ok y' ∧
      matrix_multiply tc6_a tc6_x tc6_y 3 5 = .ok y') ∧
    matrix_multiply tc6_a tc6_x tc6_y 3 5 = .ok ⟨2, 1, false, [3, -25]⟩ :=
  ⟨⟨by decide, by decide, by decide, by decide, by decide, by decide, by decide, by decide,
      by decide⟩,
    matrix_vector_multiply_is_matrix_multiply tc6_a tc6_x tc6_y 3 5 (by decide) (by decide)
      (by decide) (by decide) (by decide) (by decide) (by decide) (by decide) (by decide),
    by with_unfolding_all rfl⟩

/-- C20.  Over exact arithmetic `matrix_mse` separates matrices: for every pair of
equal-shaped non-empty matrices both `matrix_mse(A, B)` and `matrix_mse(B, A)` complete
with the same value, that value is `≥ 0`, and it is `0` exactly when the two buffers
are equal element for element. -/
theorem matrix_mse_separates (A B : Matrix ℚ) (hA : A.WF) (hB : B.WF)
    (hm : A.m = B.m) (hn : A.n = B.n) (hne : 0 < A.m * A.n) :
    ∃ v, matrix_mse A B = .ok v ∧ matrix_mse B A = .ok v ∧ 0 ≤ v ∧
      (v = 0 ↔ A.raw = B.raw) := by
  have hN : B.m * B.n = A.m * A.n := by rw [hm, hn]
  have hNq : ((A.m * A.n : ℕ) : ℚ) ≠ 0 := Nat.cast_ne_zero.mpr (Nat.pos_iff_ne_zero.mp hne)
  refine ⟨_, matrix_mse_run A B hA hB hm hn, ?_, ?_, ?_⟩
  · rw [matrix_mse_run B A hB hA hm.symm hn.symm, hN, foldl_squares, foldl_squares]
    congr 2
    apply Finset.sum_congr rfl
    intro i _
    ring
  · rw [foldl_squares]
    exact div_nonneg (Finset.sum_nonneg (fun i _ => sq_nonneg _)) (Nat.cast_nonneg _)
  · rw [foldl_squares, div_eq_zero_iff, or_iff_left hNq,
      Finset.sum_eq_zero_iff_of_nonneg (fun i _ => sq_nonneg _)]
    constructor
    · intro hz
      show A.data = B.data
      apply List.ext_getElem?
      intro i
      by_cases hi : i < A.m * A.n
      · have ha := getElem?_getD_of_lt A.data i (by rw [hA]; exact hi)
        have hb := getElem?_getD_of_lt B.data i (by rw [hB, hN]; exact hi)
        have h0 := hz i (Finset.mem_range.mpr hi)
        rw [ha, hb, sub_eq_zero.mp ((pow_eq_zero_iff two_ne_zero).mp h0)]
      · rw [List.getElem?_eq_none (by rw [hA]; omega),
          List.getElem?_eq_none (by rw [hB, hN]; omega)]
    · intro heq i _
      have hd : A.data = B.data := heq
      rw [hd, sub_self]
      exact zero_pow two_ne_zero

/-- C20, test case 5: `a` against `b` gives `3041/600` in both orders, `a` against
itself gives `0`. -/
theorem matrix_mse_separates_witness :
    (tc5_a.WF ∧ tc5_b.WF ∧ tc5_a.m = tc5_b.m ∧ tc5_a.n = tc5_b.n ∧ 0 < tc5_a.m * tc5_a.n) ∧
    (∃ v, matrix_mse tc5_a tc5_b = .ok v ∧ matrix_mse tc5_b tc5_a = .ok v ∧ 0 ≤ v ∧
      (v = 0 ↔ tc5_a.raw = tc5_b.raw)) ∧
    matrix_mse tc5_b tc5_a = .ok (3041 / 600) ∧ matrix_mse tc5_a tc5_a = .ok 0 :=
  ⟨⟨by decide, by decide, by decide, by decide, by decide⟩,
    matrix_mse_separates tc5_a tc5_b (by decide) (by decide) (by decide) (by decide)
      (by decide),
    by with_unfolding_all rfl, by with_unfolding_all rfl⟩

end ClaimsView

end Geogm
